import Mathlib

/-!
# Verification of the New-Renju rule engine and search engine

A shallow embedding in Lean 4 of the Gomoku/Renju board logic (`board.py`)
and the minimax search (`ai.py`) of the New-Renju repository, together with
theorems settling the frozen specification claims.

Modelling conventions:
* the numpy `size × size` int grid is a `List (List Nat)`; cell reads use
  `List.getD` with default `EMPTY` and writes use `List.set` (a no-op out of
  range) — every grid access in the source is guarded by
  `is_within_bounds`, so the out-of-range conventions are never observable;
* Python `while` loops that walk along a direction are expressed with an
  explicit fuel argument; a walk starting inside the bounds of the board
  takes at most `size - 1` in-bounds steps in any of the four directions
  (each step changes some coordinate by 1), so `fuel = size` makes the fuel
  never the binding constraint, and the `for i in range(1, size)` loops of
  `_is_forbidden` are exactly `fuel = size - 1`;
* mutation of the shared board is modelled by explicit state passing: each
  method that mutates `self` returns its result together with the new state;
* Python floats only carry `±math.inf` and integer-valued scores here, so
  scores are an inductive `negInf | fin (v : Int) | posInf`;
* the Zobrist table (random data) and the static evaluator `_evaluate_board`
  (a pure, read-only function of the board) are parameters of the search
  embedding: the frame theorems proved about the search hold for every
  choice of these parameters, in particular for the concrete ones.
-/

namespace NewRenju

/-- `EMPTY = 0` from `board.py`. -/
def EMPTY : Nat := 0

/-- `BLACK = 1` from `board.py`. -/
def BLACK : Nat := 1

/-- `WHITE = 2` from `board.py`. -/
def WHITE : Nat := 2

/-- `DIRECTIONS = [(0, 1), (1, 0), (1, 1), (1, -1)]` from `board.py`. -/
def DIRECTIONS : List (Int × Int) := [(0, 1), (1, 0), (1, 1), (1, -1)]

/-- `THREAT_OPEN_THREE = 1` from `board.py`. -/
def THREAT_OPEN_THREE : Nat := 1

/-- `THREAT_CLOSED_FOUR = 2` from `board.py`. -/
def THREAT_CLOSED_FOUR : Nat := 2

/-- `THREAT_OPEN_FOUR : Nat := 3` from `board.py`. -/
def THREAT_OPEN_FOUR : Nat := 3

/-- The mutable state of `Board` (`board.py`): grid, last move and the
transient forbidden-position marker.  `size` and `win_length` are set in
`__init__` and never mutated. -/
structure Board where
  size : Nat
  win_length : Nat
  grid : List (List Nat)
  last_move : Option (Int × Int)
  forbidden_checked_pos : Option (Int × Int)
deriving DecidableEq, Repr

/-- Read `grid[r, c]`.  Out-of-range reads return `EMPTY`; the source always
guards reads with `is_within_bounds`, so this convention is unobservable. -/
def gridGet (g : List (List Nat)) (r c : Int) : Nat :=
  (g.getD r.toNat []).getD c.toNat EMPTY

/-- Write `grid[r, c] = v`.  Out-of-range writes are no-ops; the source only
writes at positions previously checked to be within bounds. -/
def gridSet (g : List (List Nat)) (r c : Int) (v : Nat) : List (List Nat) :=
  g.set r.toNat ((g.getD r.toNat []).set c.toNat v)

/-- `Board.is_within_bounds` (`board.py`): `0 <= row < size and 0 <= col < size`. -/
def Board.is_within_bounds (b : Board) (row col : Int) : Bool :=
  0 ≤ row ∧ row < (b.size : Int) ∧ 0 ≤ col ∧ col < (b.size : Int)

/-- `Board.is_empty` (`board.py`): `grid[row, col] == EMPTY`. -/
def Board.is_empty (b : Board) (row col : Int) : Bool :=
  gridGet b.grid row col == EMPTY

/-- `Board.center` is computed in `__init__` and never mutated, so it is
modelled as a derived function: `(size // 2, size // 2)` when `size` is odd,
else `None`. -/
def Board.center (b : Board) : Option (Int × Int) :=
  if b.size % 2 == 1 then some ((b.size / 2 : Nat), (b.size / 2 : Nat)) else none

/-- `Board.__init__` (`board.py`): raises `ValueError` iff `size < win_length`
(modelled as `none`); otherwise produces an all-zero `size × size` grid with
no last move and no forbidden marker. -/
def Board.init (size win_length : Nat) : Option Board :=
  if size < win_length then none
  else some
    { size := size
      win_length := win_length
      grid := List.replicate size (List.replicate size EMPTY)
      last_move := none
      forbidden_checked_pos := none }

/-- A single scan along direction `(dr, dc)` starting at `(cr, cc)`: the
`while is_within_bounds and grid == player` loops of `board.py`.  Returns the
number of consecutive `player` stones together with the coordinate at which
the loop stopped (used by `_count_line_details` for the open-end check). -/
def scanDir (b : Board) (player : Nat) (dr dc : Int) :
    Nat → Int → Int → Nat × Int × Int
  | 0, cr, cc => (0, cr, cc)
  | fuel + 1, cr, cc =>
    if b.is_within_bounds cr cc ∧ gridGet b.grid cr cc = player then
      let (n, er, ec) := scanDir b player dr dc fuel (cr + dr) (cc + dc)
      (n + 1, er, ec)
    else (0, cr, cc)

/-- The stone count of a directional scan. -/
def scanCount (b : Board) (player : Nat) (fuel : Nat) (r c dr dc : Int) : Nat :=
  (scanDir b player dr dc fuel (r + dr) (c + dc)).1

/-- `Board._count_line_length` (`board.py`): total connected stones through
`(r, c)` along `(dr, dc)`, both ways. -/
def Board.count_line_length (b : Board) (r c dr dc : Int) (player : Nat) : Nat :=
  1 + scanCount b player b.size r c dr dc + scanCount b player b.size r c (-dr) (-dc)

/-- `Board._count_line_details` (`board.py`): connected stones through
`(r, c)` plus the number of open ends (the first cell past each end of the
run that is inside the board and empty). -/
def Board.count_line_details (b : Board) (r c dr dc : Int) (player : Nat) : Nat × Nat :=
  let pos := scanDir b player dr dc b.size (r + dr) (c + dc)
  let neg := scanDir b player (-dr) (-dc) b.size (r - dr) (c - dc)
  let openPos : Nat :=
    if b.is_within_bounds pos.2.1 pos.2.2 ∧ gridGet b.grid pos.2.1 pos.2.2 = EMPTY
    then 1 else 0
  let openNeg : Nat :=
    if b.is_within_bounds neg.2.1 neg.2.2 ∧ gridGet b.grid neg.2.1 neg.2.2 = EMPTY
    then 1 else 0
  (1 + pos.1 + neg.1, openPos + openNeg)

/-- Line length through `(r, c)` as computed by the two
`for i in range(1, self.size)` loops of `_is_forbidden` (`board.py`): each
loop makes at most `size - 1` steps and stops at the first failure. -/
def lineLenBounded (b : Board) (r c dr dc : Int) (player : Nat) : Nat :=
  1 + scanCount b player (b.size - 1) r c dr dc
    + scanCount b player (b.size - 1) r c (-dr) (-dc)

/-- Outcome of the direction loop of `_is_forbidden`: broke on an overline,
returned early on an exact-`win_length` (winning) run, or fell through with
the tallied open-three and four counts. -/
inductive ForbOutcome where
  | overline
  | winning
  | done (open_threes fours : Nat)
deriving DecidableEq, Repr

/-- The `for dr, dc in DIRECTIONS` loop of `_is_forbidden` (`board.py`),
with the stone already placed on `b`'s grid.  Checks overline first, then the
exact-win early return, then tallies open threes and fours. -/
def forbLoop (b : Board) (r c : Int) (player : Nat) :
    Nat → Nat → List (Int × Int) → ForbOutcome
  | open_threes, fours, [] => .done open_threes fours
  | open_threes, fours, (dr, dc) :: rest =>
    let count := lineLenBounded b r c dr dc player
    if b.win_length < count then .overline
    else if count = b.win_length then .winning
    else
      let details := b.count_line_details r c dr dc player
      forbLoop b r c player
        (if details.1 = 3 ∧ details.2 = 2 then open_threes + 1 else open_threes)
        (if details.1 = 4 then fours + 1 else fours)
        rest

/-- `Board._is_forbidden` (`board.py`): places the stone temporarily, runs
the direction loop, always reverts the temporary stone before returning.
Only Black has forbidden moves. -/
def Board.is_forbidden_priv (b : Board) (r c : Int) (player : Nat) : Bool × Board :=
  if player ≠ BLACK then (false, b)
  else
    let b1 : Board := { b with grid := gridSet b.grid r c player }
    let b2 : Board := { b1 with grid := gridSet b1.grid r c EMPTY }
    match forbLoop b1 r c player 0 0 DIRECTIONS with
    | .overline => (true, b2)
    | .winning => (false, b2)
    | .done open_threes fours =>
      (decide (2 ≤ open_threes) || decide (2 ≤ fours), b2)

/-- The `for dr, dc in DIRECTIONS` loop of the public `is_forbidden`
(`board.py`): `none` means the loop broke on an overline (skipping the tally
of any remaining directions); `some (o3, f4)` are the tallied counts.
Unlike `_is_forbidden`, there is no exact-win early return. -/
def pubForbLoop (b : Board) (r c : Int) :
    Nat → Nat → List (Int × Int) → Option (Nat × Nat)
  | open_threes, fours, [] => some (open_threes, fours)
  | open_threes, fours, (dr, dc) :: rest =>
    let line_len := b.count_line_length r c dr dc BLACK
    if b.win_length < line_len then none
    else
      let details := b.count_line_details r c dr dc BLACK
      pubForbLoop b r c
        (if details.1 = 3 ∧ details.2 = 2 then open_threes + 1 else open_threes)
        (if details.1 = 4 then fours + 1 else fours)
        rest

/-- The public `Board.is_forbidden` (`board.py`): temporarily places a BLACK
stone, tallies overline / open threes / fours in all four directions (with no
winning-move exemption), reverts, and reports 3-3, 4-4 or overline. -/
def Board.is_forbidden (b : Board) (r c : Int) : Bool × Board :=
  let b1 : Board := { b with grid := gridSet b.grid r c BLACK }
  let b2 : Board := { b1 with grid := gridSet b1.grid r c EMPTY }
  match pubForbLoop b1 r c 0 0 DIRECTIONS with
  | none => (true, b2)
  | some (open_threes, fours) =>
    (decide (2 ≤ open_threes) || decide (2 ≤ fours), b2)

/-- The Renju opening ("Shukei") restrictions of `is_valid_move`
(`board.py`): applied only when `center is not None` (odd size) and
`size >= 5`; restricts moves 0, 1 and 2. -/
def Board.shukei_ok (b : Board) (row col : Int) (move_count : Int) : Bool :=
  match b.center with
  | none => true
  | some (center_r, center_c) =>
    if b.size < 5 then true
    else if move_count == 0 then (row, col) == (center_r, center_c)
    else if move_count == 1 then
      (row, col) == (center_r - 1, center_c) || (row, col) == (center_r - 1, center_c + 1)
    else if move_count == 2 then
      (row - center_r).natAbs ≤ 2 ∧ (col - center_c).natAbs ≤ 2
    else true

/-- `Board.is_valid_move` (`board.py`): bounds, emptiness, opening rules,
then the forbidden check for Black.  Mutates only the transient
`forbidden_checked_pos` marker (the forbidden check restores the grid). -/
def Board.is_valid_move (b : Board) (row col : Int) (player : Nat) (move_count : Int) :
    Bool × Board :=
  if ¬ b.is_within_bounds row col then (false, b)
  else if ¬ b.is_empty row col then (false, b)
  else if ¬ b.shukei_ok row col move_count then (false, b)
  else if player = BLACK then
    let res := b.is_forbidden_priv row col player
    if res.1 then (false, { res.2 with forbidden_checked_pos := some (row, col) })
    else (true, { res.2 with forbidden_checked_pos := none })
  else (true, { b with forbidden_checked_pos := none })

/-- `Board.place_stone` (`board.py`): re-validates via `is_valid_move`; on
success writes the cell and updates `last_move`, else leaves the board as
`is_valid_move` left it. -/
def Board.place_stone (b : Board) (row col : Int) (player : Nat) (move_count : Int) :
    Bool × Board :=
  let res := b.is_valid_move row col player move_count
  if res.1 then
    (true, { res.2 with grid := gridSet res.2.grid row col player,
                        last_move := some (row, col) })
  else (false, res.2)

/-- Coordinates of the consecutive `player` stones met while walking from
`(cr, cc)` in direction `(dr, dc)`: the coordinate-collecting parts of the
`check_win` while loops (`board.py`). -/
def collectDir (b : Board) (player : Nat) (dr dc : Int) :
    Nat → Int → Int → List (Int × Int)
  | 0, _, _ => []
  | fuel + 1, cr, cc =>
    if b.is_within_bounds cr cc ∧ gridGet b.grid cr cc = player then
      (cr, cc) :: collectDir b player dr dc fuel (cr + dr) (cc + dc)
    else []

/-- Lexicographic order on coordinate pairs: Python's tuple `sort()` order. -/
def lexLe (a b : Int × Int) : Prop :=
  a.1 < b.1 ∨ (a.1 = b.1 ∧ a.2 ≤ b.2)

instance : DecidableRel lexLe := fun a b => by
  unfold lexLe; infer_instance

/-- The direction loop of `Board.check_win` (`board.py`): on the first
direction whose total run reaches `win_length`, sorts the collected run
coordinates and returns the sorted extremes with the direction vector. -/
def checkWinLoop (b : Board) (player : Nat) (r c : Int) :
    List (Int × Int) → Bool × Option ((Int × Int) × (Int × Int) × (Int × Int))
  | [] => (false, none)
  | (dr, dc) :: rest =>
    let pos := collectDir b player dr dc b.size (r + dr) (c + dc)
    let neg := collectDir b player (-dr) (-dc) b.size (r - dr) (c - dc)
    let line_coords := (r, c) :: (pos ++ neg)
    if b.win_length ≤ line_coords.length then
      let sortedCoords := List.insertionSort lexLe line_coords
      (true, some (sortedCoords.headD (r, c), sortedCoords.getLastD (r, c), (dr, dc)))
    else checkWinLoop b player r c rest

/-- `Board.check_win` (`board.py`): only evaluated relative to `last_move`;
returns no-win if there is no last move or its cell does not hold `player`. -/
def Board.check_win (b : Board) (player : Nat) :
    Bool × Option ((Int × Int) × (Int × Int) × (Int × Int)) :=
  match b.last_move with
  | none => (false, none)
  | some (r, c) =>
    if gridGet b.grid r c ≠ player then (false, none)
    else checkWinLoop b player r c DIRECTIONS

/-- A threat record of `find_threats` (`board.py`):
`(threat_type, pattern_start_coord, pattern_end_coord, direction_char,
player_stone_coords)`. -/
structure Threat where
  ttype : Nat
  startCoord : Int × Int
  endCoord : Int × Int
  dirChar : String
  stones : List (Int × Int)
deriving DecidableEq, Repr

/-- The `patterns_to_check` list of `find_threats` (`board.py`), in source
order, for player value `p` with opponent value `opp`. -/
def patternsToCheck (p opp : Nat) : List (Nat × List Nat) :=
  let e := EMPTY
  [ (THREAT_OPEN_THREE, [e, p, p, p, e]),
    (THREAT_OPEN_THREE, [e, p, p, e, p, e]),
    (THREAT_OPEN_THREE, [e, p, e, p, p, e]),
    (THREAT_OPEN_THREE, [e, p, e, p, e, p, e]),
    (THREAT_CLOSED_FOUR, [opp, p, p, p, p, e]),
    (THREAT_CLOSED_FOUR, [e, p, p, p, p, opp]),
    (THREAT_OPEN_FOUR, [e, p, p, p, p, e]),
    (THREAT_CLOSED_FOUR, [p, p, p, e, p]),
    (THREAT_CLOSED_FOUR, [p, p, e, p, p]),
    (THREAT_CLOSED_FOUR, [p, e, p, p, p]) ]

/-- The cell of index `i` of a pattern anchored at `(r, c)` in the scan
direction written `"h"`, `"v"`, `"d1"` or `"d2"` (`find_threats`). -/
def patternCell (dchar : String) (r c : Int) (i : Nat) : Int × Int :=
  if dchar = "h" then (r, c + i)
  else if dchar = "v" then (r + i, c)
  else if dchar = "d1" then (r + i, c + i)
  else (r - i, c + i)

/-- Accumulator of `find_threats`: the `threats` list plus the
`processed_threat_locations` set of frozensets of stone coordinates. -/
def ThreatAcc := List Threat × List (Finset (Int × Int))

/-- The `add_threat_if_valid` helper of `find_threats` (`board.py`):
extracts the `player` stones inside the matched window from the underlying
grid, and appends a new threat record unless that exact stone set was
already recorded.  The Python `set` of frozensets is modelled as a list with
membership lookup. -/
def addThreatIfValid (b : Board) (p : Nat) (r c : Int) (plen : Nat)
    (ttype : Nat) (dchar : String) (acc : ThreatAcc) : ThreatAcc :=
  let startCoord := (r, c)
  let endCoord := patternCell dchar r c (plen - 1)
  let stones := (List.range plen).filterMap fun i =>
    let cell := patternCell dchar r c i
    if b.is_within_bounds cell.1 cell.2 ∧ gridGet b.grid cell.1 cell.2 = p then
      some cell
    else none
  if stones = [] then acc
  else
    let cells : Finset (Int × Int) := stones.toFinset
    if cells = ∅ then acc
    else if cells ∈ acc.2 then acc
    else (acc.1 ++ [⟨ttype, startCoord, endCoord, dchar, stones⟩], cells :: acc.2)

/-- The four directional window checks of `find_threats` for one cell
`(r, c)` and one pattern, in source order (horizontal, vertical,
down-right diagonal, up-right diagonal). -/
def checkPatternAt (b : Board) (p : Nat) (r c : Nat) (acc : ThreatAcc)
    (entry : Nat × List Nat) : ThreatAcc :=
  let ttype := entry.1
  let pattern := entry.2
  let plen := pattern.length
  let ri : Int := r
  let ci : Int := c
  let acc1 :=
    if c + plen ≤ b.size ∧
        (List.range plen).map (fun i => gridGet b.grid ri (ci + i)) = pattern then
      addThreatIfValid b p ri ci plen ttype "h" acc
    else acc
  let acc2 :=
    if r + plen ≤ b.size ∧
        (List.range plen).map (fun i => gridGet b.grid (ri + i) ci) = pattern then
      addThreatIfValid b p ri ci plen ttype "v" acc1
    else acc1
  let acc3 :=
    if r + plen ≤ b.size ∧ c + plen ≤ b.size ∧
        (List.range plen).map (fun i => gridGet b.grid (ri + i) (ci + i)) = pattern then
      addThreatIfValid b p ri ci plen ttype "d1" acc2
    else acc2
  if plen - 1 ≤ r ∧ c + plen ≤ b.size ∧
      (List.range plen).map (fun i => gridGet b.grid (ri - i) (ci + i)) = pattern then
    addThreatIfValid b p ri ci plen ttype "d2" acc3
  else acc3

/-- `Board.find_threats` (`board.py`): pattern scan over every cell, every
pattern and all four scan directions.  Threat scanning is disabled (returns
`[]`) whenever `win_length != 5`. -/
def Board.find_threats (b : Board) (player : Nat) : List Threat :=
  if b.win_length ≠ 5 then []
  else
    let p := player
    let opp := if p = BLACK then WHITE else BLACK
    let pats := patternsToCheck p opp
    let final := (List.range b.size).foldl
      (fun acc r =>
        (List.range b.size).foldl
          (fun acc c => pats.foldl (fun acc entry => checkPatternAt b p r c acc entry) acc)
          acc)
      (([], []) : ThreatAcc)
    final.1

/-- `Board.get_empty_cells` (`board.py`): row-major list of the coordinates
of all empty cells (`np.where(grid == EMPTY)` order). -/
def Board.get_empty_cells (b : Board) : List (Int × Int) :=
  (List.range b.size).flatMap fun r =>
    (List.range b.size).filterMap fun c =>
      if gridGet b.grid r c = EMPTY then some ((r : Int), (c : Int)) else none

/-- Row-major list of occupied cells (`np.where(board.grid != EMPTY)` in
`ai.py`). -/
def occupiedCells (b : Board) : List (Int × Int) :=
  (List.range b.size).flatMap fun r =>
    (List.range b.size).filterMap fun c =>
      if gridGet b.grid r c ≠ EMPTY then some ((r : Int), (c : Int)) else none

/-- Scores carried by `_minimax` (`ai.py`): Python floats that are either
`±math.inf` or exactly representable integers (pattern scores and sums of
them), so an extended integer models them faithfully. -/
inductive Score where
  | negInf
  | fin (v : Int)
  | posInf
deriving DecidableEq, Repr

/-- Strict `<` on scores (float comparison in `ai.py`). -/
def Score.ltb : Score → Score → Bool
  | .negInf, .negInf => false
  | .negInf, _ => true
  | .fin _, .negInf => false
  | .fin a, .fin b => a < b
  | .fin _, .posInf => true
  | .posInf, _ => false

/-- `<=` on scores. -/
def Score.leb (a b : Score) : Bool := ! Score.ltb b a

/-- Python `max(a, b)`: returns `a` when `a >= b`. -/
def Score.maxS (a b : Score) : Score := if Score.ltb a b then b else a

/-- Python `min(a, b)`: returns `a` when `a <= b`. -/
def Score.minS (a b : Score) : Score := if Score.ltb b a then b else a

/-- `PATTERN_SCORES["p_win"]` of `AIHard` (`ai.py`). -/
def P_WIN : Int := 10000000

/-- `PATTERN_SCORES["o_win"]` of `AIHard` (`ai.py`). -/
def O_WIN : Int := -100000000

/-- `ZOBRIST_PLAYERS = {BLACK: 0, WHITE: 1, EMPTY: 2}` (`ai.py`). -/
def zobristIdx (p : Nat) : Nat :=
  if p = BLACK then 0 else if p = WHITE then 1 else 2

/-- A transposition-table bound tag (`'exact' | 'lowerbound' | 'upperbound'`
strings in `ai.py`). -/
inductive TTFlag where
  | exact
  | lowerbound
  | upperbound
deriving DecidableEq, Repr

/-- A transposition-table entry `(score, depth, flag)` (`ai.py`). -/
structure TTEntry where
  score : Score
  depth : Int
  flag : TTFlag
deriving DecidableEq, Repr

/-- The transposition table: a Python dict from 64-bit hash to entry,
modelled as an association list where assignment conses and lookup returns
the most recent binding. -/
def TTable := List (Nat × TTEntry)

/-- Dict lookup `transposition_table.get(h)`. -/
def ttGet (tt : TTable) (h : Nat) : Option TTEntry :=
  (tt.find? (fun e => e.1 == h)).map (·.2)

/-- Dict assignment `transposition_table[h] = e`. -/
def ttSet (tt : TTable) (h : Nat) (e : TTEntry) : TTable := (h, e) :: tt

/-- The mutable state threaded through `_minimax` (`ai.py`): the one shared
board plus the transposition table (`self.transposition_table`). -/
structure SearchState where
  board : Board
  tt : TTable

/-- The fixed data of one `AIHard` search: the two player colours, the
Zobrist key table (random data in the source, hence an arbitrary function
here) and the static evaluator `_evaluate_board` (a pure, read-only function
of the board in the source, hence an arbitrary function here — the frame
theorems hold for every choice). -/
structure AIConf where
  player : Nat
  opponent : Nat
  zob : Nat → Nat → Nat → Nat
  evalBoard : Board → Int

/-- `AIHard._heuristic_score_move_sim` (`ai.py`): 8-neighbour occupancy
count around `(r, c)`; the `player` and `move_count` arguments are unused in
the source body. -/
def heuristicScoreMoveSim (b : Board) (r c : Int) (player : Nat) (move_count : Int) : Nat :=
  let offs : List Int := [-1, 0, 1]
  (offs.flatMap fun dr => offs.map fun dc => (dr, dc)).countP fun d =>
    ¬(d.1 = 0 ∧ d.2 = 0) ∧
    b.is_within_bounds (r + d.1) (c + d.2) ∧
    gridGet b.grid (r + d.1) (c + d.2) ≠ EMPTY

/-- The 8 neighbour offsets scanned by the candidate generator of
`_minimax`, in loop order (`dr` then `dc`, skipping `(0, 0)`). -/
def neighborOffsets : List (Int × Int) :=
  [(-1, -1), (-1, 0), (-1, 1), (0, -1), (0, 1), (1, -1), (1, 0), (1, 1)]

/-- Append a move unless already present: the effect of `set.add` on the
candidate set, with insertion order standing in for Python's unspecified
set-iteration order (the source converts the set to a list in arbitrary
order). -/
def addIfAbsent (l : List (Int × Int)) (m : Int × Int) : List (Int × Int) :=
  if m ∈ l then l else l ++ [m]

/-- Candidate move generation of `_minimax` (`ai.py`): cells adjacent to an
occupied cell, empty, and valid for the player to move.  Threads the board
state because `is_valid_move` mutates the transient forbidden marker. -/
def genCandidates (b0 : Board) (cp : Nat) (mc : Int) : List (Int × Int) × Board :=
  let occupied := occupiedCells b0
  if occupied = [] then
    let center : Int := (b0.size / 2 : Nat)
    let res := b0.is_valid_move center center cp mc
    (if res.1 then [(center, center)] else [], res.2)
  else
    occupied.foldl
      (fun acc rc =>
        neighborOffsets.foldl
          (fun acc d =>
            let nr := rc.1 + d.1
            let nc := rc.2 + d.2
            if acc.2.is_within_bounds nr nc ∧ gridGet acc.2.grid nr nc = EMPTY then
              let res := acc.2.is_valid_move nr nc cp mc
              (if res.1 then addIfAbsent acc.1 (nr, nc) else acc.1, res.2)
            else acc)
          acc)
      (([], b0) : List (Int × Int) × Board)

/-- The immediate win / block scan of `_minimax` (`ai.py`): hypothetically
place `p` on each candidate in turn, test `check_win`, revert, and stop at
the first success. -/
def scanImmediate (p : Nat) : List (Int × Int) → Board → Option (Int × Int) × Board
  | [], b => (none, b)
  | (r, c) :: rest, b =>
    let b1 : Board := { b with grid := gridSet b.grid r c p }
    let won := (b1.check_win p).1
    let b2 : Board := { b1 with grid := gridSet b1.grid r c EMPTY }
    if won then (some (r, c), b2) else scanImmediate p rest b2

/-- Descending comparison on heuristic-scored moves: the effect of
`move_scores.sort(key=score, reverse=True)` in `ai.py`. -/
def hscoreGe (x y : (Int × Int) × Nat) : Prop := y.2 ≤ x.2

instance : DecidableRel hscoreGe := fun _ _ => Nat.decLe _ _

/-- Order candidate moves by the lightweight proximity heuristic,
descending (`_minimax`, `ai.py`). -/
def orderMoves (b : Board) (cp : Nat) (mc : Int) (moves : List (Int × Int)) :
    List (Int × Int) :=
  let scored := moves.map fun m => (m, heuristicScoreMoveSim b m.1 m.2 cp mc)
  (List.insertionSort hscoreGe scored).map (·.1)

/-- The maximizing alpha-beta loop of `_minimax` (`ai.py`): place the stone
and set `last_move`, recurse at `depth - 1` with the XOR-updated hash,
revert the cell and restore the pre-loop `last_move`, update `max_eval` and
`alpha`, and break on `beta <= alpha`. -/
def mmLoopMax (cp : Nat) (zob : Nat → Nat → Nat → Nat)
    (recurse : SearchState → Score → Score → Nat → Score × SearchState)
    (origLast : Option (Int × Int)) (beta : Score) (hash : Nat) :
    List (Int × Int) → Score → Score → SearchState → Score × SearchState
  | [], maxEval, _, st => (maxEval, st)
  | (r, c) :: rest, maxEval, alpha, st =>
    let b1 : Board := { st.board with grid := gridSet st.board.grid r c cp,
                                      last_move := some (r, c) }
    let nextHash := hash ^^^ zob r.toNat c.toNat (zobristIdx cp)
    let res := recurse { st with board := b1 } alpha beta nextHash
    let b2 : Board := { res.2.board with grid := gridSet res.2.board.grid r c EMPTY,
                                         last_move := origLast }
    let st2 : SearchState := { res.2 with board := b2 }
    let maxEval' := Score.maxS maxEval res.1
    let alpha' := Score.maxS alpha res.1
    if Score.leb beta alpha' then (maxEval', st2)
    else mmLoopMax cp zob recurse origLast beta hash rest maxEval' alpha' st2

/-- The minimizing alpha-beta loop of `_minimax` (`ai.py`), mirroring
`mmLoopMax` with `min_eval` / `beta` updates and the `beta <= alpha`
cut-off. -/
def mmLoopMin (cp : Nat) (zob : Nat → Nat → Nat → Nat)
    (recurse : SearchState → Score → Score → Nat → Score × SearchState)
    (origLast : Option (Int × Int)) (alpha : Score) (hash : Nat) :
    List (Int × Int) → Score → Score → SearchState → Score × SearchState
  | [], minEval, _, st => (minEval, st)
  | (r, c) :: rest, minEval, beta, st =>
    let b1 : Board := { st.board with grid := gridSet st.board.grid r c cp,
                                      last_move := some (r, c) }
    let nextHash := hash ^^^ zob r.toNat c.toNat (zobristIdx cp)
    let res := recurse { st with board := b1 } alpha beta nextHash
    let b2 : Board := { res.2.board with grid := gridSet res.2.board.grid r c EMPTY,
                                         last_move := origLast }
    let st2 : SearchState := { res.2 with board := b2 }
    let minEval' := Score.minS minEval res.1
    let beta' := Score.minS beta res.1
    if Score.leb beta' alpha then (minEval', st2)
    else mmLoopMin cp zob recurse origLast alpha hash rest minEval' beta' st2

/-- The tail of `_minimax` once a non-empty candidate list exists (`ai.py`):
the immediate win / block short-circuit scans, move ordering, the
alpha-beta loop over the ordered moves and the final transposition-table
store.  `alphaCur` / `betaCur` are the possibly TT-tightened bounds;
`origAlpha` / `origBeta` are the entry values, used for the bound-type tags
exactly as the source uses `original_alpha` / `original_beta`. -/
def minimaxExpand (conf : AIConf)
    (recurse : SearchState → Int → Score → Score → Bool → Int → Nat → Score × SearchState)
    (st1 : SearchState) (candidates : List (Int × Int)) (cp op : Nat) (depth : Int)
    (alphaCur betaCur origAlpha origBeta : Score) (maximizing : Bool) (mc : Int)
    (hash : Nat) : Score × SearchState :=
  let winScan := scanImmediate cp candidates st1.board
  let blockScan :=
    if winScan.1 = none then scanImmediate op candidates winScan.2
    else (none, winScan.2)
  let st2 : SearchState := { st1 with board := blockScan.2 }
  let ordered :=
    match winScan.1 with
    | some m => [m]
    | none =>
      match blockScan.1 with
      | some m => [m]
      | none => orderMoves st2.board cp mc candidates
  let origLast := st2.board.last_move
  if maximizing then
    let loopRes := mmLoopMax cp conf.zob
      (fun s a b h => recurse s (depth - 1) a b false (mc + 1) h)
      origLast betaCur hash ordered Score.negInf alphaCur st2
    let flag : TTFlag :=
      if Score.leb loopRes.1 origAlpha then .upperbound
      else if Score.leb betaCur loopRes.1 then .lowerbound
      else .exact
    (loopRes.1, { loopRes.2 with tt := ttSet loopRes.2.tt hash ⟨loopRes.1, depth, flag⟩ })
  else
    let loopRes := mmLoopMin cp conf.zob
      (fun s a b h => recurse s (depth - 1) a b true (mc + 1) h)
      origLast alphaCur hash ordered Score.posInf betaCur st2
    let flag : TTFlag :=
      if Score.leb loopRes.1 alphaCur then .upperbound
      else if Score.leb origBeta loopRes.1 then .lowerbound
      else .exact
    (loopRes.1, { loopRes.2 with tt := ttSet loopRes.2.tt hash ⟨loopRes.1, depth, flag⟩ })

/-- The body of `_minimax` up to and including candidate generation:
terminal win / loss checks against the previous ply, the draw and leaf
checks, then candidate generation and the hand-off to `minimaxExpand`. -/
def minimaxMain (conf : AIConf)
    (recurse : SearchState → Int → Score → Score → Bool → Int → Nat → Score × SearchState)
    (st : SearchState) (depth : Int) (alphaCur betaCur origAlpha origBeta : Score)
    (maximizing : Bool) (mc : Int) (hash : Nat) : Score × SearchState :=
  let cp := if maximizing then conf.player else conf.opponent
  let op := if maximizing then conf.opponent else conf.player
  if (st.board.check_win cp).1 then (Score.fin (P_WIN + depth), st)
  else if (st.board.check_win op).1 then (Score.fin (O_WIN - depth), st)
  else if depth ≤ 0 then
    if st.board.get_empty_cells = [] then (Score.fin 0, st)
    else (Score.fin (conf.evalBoard st.board), st)
  else if st.board.get_empty_cells = [] then (Score.fin 0, st)
  else
    let cg := genCandidates st.board cp mc
    let st1 : SearchState := { st with board := cg.2 }
    if cg.1 = [] then (Score.fin (conf.evalBoard st1.board), st1)
    else minimaxExpand conf recurse st1 cg.1 cp op depth alphaCur betaCur
      origAlpha origBeta maximizing mc hash

/-- `AIHard._minimax` (`ai.py`) with an explicit fuel argument as the
termination measure.  The recursion decreases `depth` by 1 each ply and
stops at `depth <= 0`, so the wrapper's `fuel = depth.toNat + 1` makes the
fuel-exhausted base case unreachable.  Starts with the transposition-table
lookup, which may return directly or tighten the alpha / beta window. -/
def minimaxGo (conf : AIConf) :
    Nat → SearchState → Int → Score → Score → Bool → Int → Nat → Score × SearchState
  | 0, st, _, _, _, _, _, _ => (Score.fin 0, st)
  | fuel + 1, st, depth, alpha, beta, maximizing, mc, hash =>
    let recurse := minimaxGo conf fuel
    match ttGet st.tt hash with
    | some e =>
      if depth ≤ e.depth then
        if e.flag = .exact then (e.score, st)
        else
          let alpha1 := if e.flag = .lowerbound ∧ Score.ltb alpha e.score then e.score else alpha
          let beta1 := if e.flag = .upperbound ∧ Score.ltb e.score beta then e.score else beta
          if Score.leb beta1 alpha1 then (e.score, st)
          else minimaxMain conf recurse st depth alpha1 beta1 alpha beta maximizing mc hash
      else minimaxMain conf recurse st depth alpha beta alpha beta maximizing mc hash
    | none => minimaxMain conf recurse st depth alpha beta alpha beta maximizing mc hash

/-- `AIHard._minimax` (`ai.py`): the fuel is hidden by instantiating it from
the depth, which bounds the recursion. -/
def minimax (conf : AIConf) (st : SearchState) (depth : Int) (alpha beta : Score)
    (maximizing : Bool) (mc : Int) (hash : Nat) : Score × SearchState :=
  minimaxGo conf (depth.toNat + 1) st depth alpha beta maximizing mc hash

/-- The configuration fields of an `AIHard` instance relevant to strategy
construction (`ai.py`): player colour, `max_depth` and `time_limit` (a
Python float; the defaults 0.8 and 1.5 are modelled as rationals). -/
structure AIHardConf where
  player : Nat
  max_depth : Int
  time_limit : ℚ
deriving DecidableEq, Repr

/-- `AIHard.__init__(self, player, depth, time_limit_sec)` (`ai.py`). -/
def AIHard.init (player : Nat) (depth : Int) (time_limit_sec : ℚ) : AIHardConf :=
  { player := player, max_depth := depth, time_limit := time_limit_sec }

/-- `AIHard.__init__` called without explicit `depth` / `time_limit_sec`:
the Python default parameters are `depth=3, time_limit_sec=0.8`. -/
def AIHard.initDefault (player : Nat) : AIHardConf :=
  AIHard.init player 3 (8 / 10 : ℚ)

/-- The result of the `create_ai` factory (`ai.py`): one of the three
strategy classes. -/
inductive AIInstance where
  | easy (player : Nat)
  | normal (player : Nat)
  | hard (conf : AIHardConf)
deriving DecidableEq, Repr

/-- `create_ai(difficulty, player)` (`ai.py`): string dispatch on the
difficulty; the `"hard"` branch constructs
`AIHard(player, depth=2, time_limit_sec=1.5)` explicitly; unknown
difficulties fall back to easy. -/
def create_ai (difficulty : String) (player : Nat) : AIInstance :=
  if difficulty = "easy" then .easy player
  else if difficulty = "normal" then .normal player
  else if difficulty = "hard" then .hard (AIHard.init player 2 (15 / 10 : ℚ))
  else .easy player

/-- The total run length through `(r, c)` in direction `(dr, dc)` once a
BLACK stone is hypothetically placed at `(r, c)`, counted exactly as the
overline loops of `_is_forbidden` count it. -/
def lineLenPlaced (b : Board) (r c dr dc : Int) : Nat :=
  lineLenBounded { b with grid := gridSet b.grid r c BLACK } r c dr dc BLACK

/-- An empty `size × size` board with the given win length (the state
produced by a successful `Board.__init__`). -/
def emptyBoardN (size wl : Nat) : Board :=
  { size := size
    win_length := wl
    grid := List.replicate size (List.replicate size EMPTY)
    last_move := none
    forbidden_checked_pos := none }

/-- Concrete empty 5 × 5 board used by witnesses. -/
def witnessBoard : Board := emptyBoardN 5 5

/-- Concrete search configuration used by witnesses (trivial Zobrist keys
and evaluator; the frame theorems hold for every choice). -/
def witnessConf : AIConf :=
  { player := BLACK, opponent := WHITE, zob := fun _ _ _ => 0, evalBoard := fun _ => 0 }

/-- Concrete search state used by witnesses. -/
def witnessState : SearchState := { board := witnessBoard, tt := [] }

/-- 15 × 15 board whose cell (7, 7) completes an exact five horizontally
while also completing a vertical four and a diagonal four: Black stones at
(7,3)..(7,6), (4,7)..(6,7) and (4,4),(5,5),(6,6). -/
def c10Board : Board :=
  { size := 15
    win_length := 5
    grid := ([(7, 3), (7, 4), (7, 5), (7, 6), (4, 7), (5, 7), (6, 7),
              (4, 4), (5, 5), (6, 6)] : List (Int × Int)).foldl
      (fun g rc => gridSet g rc.1 rc.2 BLACK)
      (List.replicate 15 (List.replicate 15 EMPTY))
    last_move := none
    forbidden_checked_pos := none }

/-- 5 × 5 board with four Black stones on row 0: placing Black at (0, 4)
completes an exact-win_length run. -/
def c3Board : Board :=
  { size := 5
    win_length := 5
    grid := [[1, 1, 1, 1, 0],
             [0, 0, 0, 0, 0],
             [0, 0, 0, 0, 0],
             [0, 0, 0, 0, 0],
             [0, 0, 0, 0, 0]]
    last_move := none
    forbidden_checked_pos := none }

/-- 5 × 5 board with `win_length = 4` and a Black four on row 0: threat
scanning is nevertheless disabled because the win length is not 5. -/
def c9Board : Board :=
  { size := 5
    win_length := 4
    grid := [[1, 1, 1, 1, 0],
             [0, 0, 0, 0, 0],
             [0, 0, 0, 0, 0],
             [0, 0, 0, 0, 0],
             [0, 0, 0, 0, 0]]
    last_move := none
    forbidden_checked_pos := none }

/-- The coordinates of the contiguous run of `player` stones through
`(r, c)` in direction `(dr, dc)`: exactly the `line_coords` list that
`check_win` collects before sorting. -/
def runCoords (b : Board) (player : Nat) (r c dr dc : Int) : List (Int × Int) :=
  (r, c) :: (collectDir b player dr dc b.size (r + dr) (c + dc)
    ++ collectDir b player (-dr) (-dc) b.size (r - dr) (c - dc))

/-- The number of `player` stones extending from `(r, c)` in the positive
sense of direction `(dr, dc)`, as counted by `check_win`'s first while
loop. -/
def posRun (b : Board) (player : Nat) (r c dr dc : Int) : Nat :=
  (scanDir b player dr dc b.size (r + dr) (c + dc)).1

/-- The number of `player` stones extending from `(r, c)` in the negative
sense of direction `(dr, dc)`, as counted by `check_win`'s second while
loop. -/
def negRun (b : Board) (player : Nat) (r c dr dc : Int) : Nat :=
  (scanDir b player (-dr) (-dc) b.size (r - dr) (c - dc)).1

/-- Invariant of the `find_threats` accumulator: recorded threats have
pairwise distinct stone-coordinate sets, and every recorded set is in the
processed-set list. -/
def ThreatInv (acc : ThreatAcc) : Prop :=
  acc.1.Pairwise (fun t1 t2 => t1.stones.toFinset ≠ t2.stones.toFinset)
  ∧ ∀ t ∈ acc.1, t.stones.toFinset ∈ acc.2

/-- 5 × 5 board with a full Black row 0 and `last_move = (0, 2)`: a won
position used as the `check_win` witness. -/
def c2Board : Board :=
  { size := 5
    win_length := 5
    grid := [[1, 1, 1, 1, 1],
             [2, 2, 2, 2, 0],
             [0, 0, 0, 0, 0],
             [0, 0, 0, 0, 0],
             [0, 0, 0, 0, 0]]
    last_move := some (0, 2)
    forbidden_checked_pos := none }

/-! ## List helper lemmas -/

theorem list_set_getD_self {α} (l : List α) (i : Nat) (d : α) :
    l.set i (l.getD i d) = l := by
  induction l generalizing i with
  | nil => rfl
  | cons a t ih =>
    cases i with
    | zero => rfl
    | succ j => simpa [List.set, List.getD] using ih j

theorem list_getD_set_self {α} (l : List α) (i : Nat) (a d : α) :
    (l.set i a).getD i d = if i < l.length then a else d := by
  induction l generalizing i with
  | nil => simp [List.set, List.getD]
  | cons x t ih =>
    cases i with
    | zero => simp [List.set, List.getD]
    | succ j => simpa [List.set, List.getD, Nat.succ_lt_succ_iff] using ih j

/-- Undo discipline at the list level: writing `v` and then writing `EMPTY`
back restores a grid whose cell was `EMPTY`. -/
theorem gridSet_restore (g : List (List Nat)) (r c : Int) (v : Nat)
    (h : gridGet g r c = EMPTY) : gridSet (gridSet g r c v) r c EMPTY = g := by
  unfold gridGet at h
  unfold gridSet
  by_cases hi : r.toNat < g.length
  · have hrow : ((g.set r.toNat ((g.getD r.toNat []).set c.toNat v)).getD r.toNat [])
        = (g.getD r.toNat []).set c.toNat v := by
      rw [list_getD_set_self] ; simp [hi]
    rw [hrow, List.set_set, List.set_set]
    have hcell : (g.getD r.toNat []).set c.toNat EMPTY = g.getD r.toNat [] := by
      conv_lhs => rw [← h]
      exact list_set_getD_self _ _ _
    rw [hcell, list_set_getD_self]
  · have hg : ∀ row, g.set r.toNat row = g :=
      fun row => List.set_eq_of_length_le (Nat.le_of_not_lt hi)
    simp [hg]

/-! ## Frame lemmas: every temporary placement is reverted -/

/-- `_is_forbidden` restores the shared board exactly (given its documented
precondition that the probed cell is empty): the returned state is the input
state. -/
theorem is_forbidden_priv_state (b : Board) (r c : Int) (player : Nat)
    (h : gridGet b.grid r c = EMPTY) :
    (b.is_forbidden_priv r c player).2 = b := by
  unfold Board.is_forbidden_priv
  by_cases hp : player ≠ BLACK
  · simp [hp]
  · simp only [hp, if_false, ite_false]
    have hrestore : gridSet (gridSet b.grid r c player) r c EMPTY = b.grid :=
      gridSet_restore b.grid r c player h
    cases b with
    | mk size wl grid lm fcp =>
      simp only [] at hrestore ⊢
      split <;> simp [hrestore]

/-- The public `is_forbidden` also restores the board exactly when probing
an empty cell. -/
theorem is_forbidden_state (b : Board) (r c : Int)
    (h : gridGet b.grid r c = EMPTY) :
    (b.is_forbidden r c).2 = b := by
  unfold Board.is_forbidden
  have hrestore : gridSet (gridSet b.grid r c BLACK) r c EMPTY = b.grid :=
    gridSet_restore b.grid r c BLACK h
  cases b with
  | mk size wl grid lm fcp =>
    simp only [] at hrestore ⊢
    split <;> simp [hrestore]

/-- A move accepted by `is_valid_move` targets an empty cell. -/
theorem is_valid_move_empty_of_true (b : Board) (row col : Int) (player : Nat)
    (mc : Int) (h : (b.is_valid_move row col player mc).1 = true) :
    gridGet b.grid row col = EMPTY := by
  unfold Board.is_valid_move at h
  by_cases hb : ¬ b.is_within_bounds row col
  · simp [hb] at h
  · by_cases he : ¬ b.is_empty row col
    · simp [hb, he] at h
    · simp only [Board.is_empty, not_not] at he
      exact eq_of_beq he

/-- `is_valid_move` never changes the grid or the last move: the forbidden
probe it may perform is fully reverted; only the transient marker can
change. -/
theorem is_valid_move_state (b : Board) (row col : Int) (player : Nat) (mc : Int) :
    (b.is_valid_move row col player mc).2.grid = b.grid
    ∧ (b.is_valid_move row col player mc).2.last_move = b.last_move
    ∧ (b.is_valid_move row col player mc).2.size = b.size
    ∧ (b.is_valid_move row col player mc).2.win_length = b.win_length := by
  unfold Board.is_valid_move
  by_cases hb : ¬ b.is_within_bounds row col
  · simp [hb]
  · by_cases he : ¬ b.is_empty row col
    · simp [hb, he]
    · by_cases hs : ¬ b.shukei_ok row col mc
      · simp [hb, he, hs]
      · have hemp : gridGet b.grid row col = EMPTY := by
          simp only [Board.is_empty, not_not] at he
          exact eq_of_beq he
        by_cases hp : player = BLACK
        · subst hp
          have hfp := is_forbidden_priv_state b row col BLACK hemp
          simp only [hb, he, hs, if_false, ite_false, if_true, ite_true]
          split <;> simp [hfp]
        · simp [hb, he, hs, hp]

/-- A `foldl` preserves any invariant its step preserves. -/
theorem foldl_inv {α β} {P : β → Prop} (f : β → α → β) (l : List α) (init : β)
    (h0 : P init) (hstep : ∀ acc x, x ∈ l → P acc → P (f acc x)) :
    P (l.foldl f init) := by
  induction l generalizing init with
  | nil => exact h0
  | cons a t ih =>
    exact ih (f init a) (hstep init a (List.mem_cons_self a t) h0)
      (fun acc x hx => hstep acc x (List.mem_cons_of_mem a hx))

/-- Membership after `addIfAbsent`. -/
theorem mem_addIfAbsent {l : List (Int × Int)} {m m' : Int × Int}
    (h : m' ∈ addIfAbsent l m) : m' ∈ l ∨ m' = m := by
  unfold addIfAbsent at h
  split at h
  · exact Or.inl h
  · rcases List.mem_append.mp h with h1 | h1
    · exact Or.inl h1
    · exact Or.inr (List.mem_singleton.mp h1)

/-- The candidate generator restores the grid and last move (each
`is_valid_move` probe is reverted) and only produces empty cells. -/
theorem genCandidates_state (b0 : Board) (cp : Nat) (mc : Int) :
    (genCandidates b0 cp mc).2.grid = b0.grid
    ∧ (genCandidates b0 cp mc).2.last_move = b0.last_move
    ∧ ∀ m ∈ (genCandidates b0 cp mc).1, gridGet b0.grid m.1 m.2 = EMPTY := by
  unfold genCandidates
  dsimp only
  split
  · -- empty board: only the centre candidate, probed once
    have hv := is_valid_move_state b0 ((b0.size / 2 : Nat)) ((b0.size / 2 : Nat)) cp mc
    refine ⟨hv.1, hv.2.1, ?_⟩
    intro m hm
    split at hm
    · next hres =>
      rcases List.mem_singleton.mp hm with rfl
      exact is_valid_move_empty_of_true b0 _ _ cp mc hres
    · simp at hm
  · -- fold over occupied cells and their neighbours
    refine foldl_inv
      (P := fun (acc : List (Int × Int) × Board) => acc.2.grid = b0.grid
        ∧ acc.2.last_move = b0.last_move
        ∧ ∀ m ∈ acc.1, gridGet b0.grid m.1 m.2 = EMPTY)
      _ _ _ ⟨rfl, rfl, by simp⟩ ?_
    intro acc rc _ hacc
    refine foldl_inv
      (P := fun (acc : List (Int × Int) × Board) => acc.2.grid = b0.grid
        ∧ acc.2.last_move = b0.last_move
        ∧ ∀ m ∈ acc.1, gridGet b0.grid m.1 m.2 = EMPTY)
      _ _ _ hacc ?_
    intro acc2 d _ hacc2
    obtain ⟨hg, hl, hm⟩ := hacc2
    split
    · next hguard =>
      have hv := is_valid_move_state acc2.2 (rc.1 + d.1) (rc.2 + d.2) cp mc
      refine ⟨by rw [hv.1, hg], by rw [hv.2.1, hl], ?_⟩
      intro m hmem
      split at hmem
      · rcases mem_addIfAbsent hmem with h1 | rfl
        · exact hm m h1
        · have := hguard.2
          rwa [hg] at this
      · exact hm m hmem
    · exact ⟨hg, hl, hm⟩

/-- The immediate win / block scan restores the board exactly when all the
scanned candidates are empty cells. -/
theorem scanImmediate_state (p : Nat) (moves : List (Int × Int)) (b : Board)
    (h : ∀ m ∈ moves, gridGet b.grid m.1 m.2 = EMPTY) :
    (scanImmediate p moves b).2 = b := by
  induction moves generalizing b with
  | nil => rfl
  | cons m rest ih =>
    obtain ⟨r, c⟩ := m
    have hrc : gridGet b.grid r c = EMPTY := h (r, c) (List.mem_cons_self _ _)
    have hb2 : ({ { b with grid := gridSet b.grid r c p } with
        grid := gridSet (gridSet b.grid r c p) r c EMPTY } : Board) = b := by
      cases b with
      | mk size wl grid lm fcp => simp [gridSet_restore grid r c p hrc]
    show (scanImmediate p ((r, c) :: rest) b).2 = b
    unfold scanImmediate
    dsimp only
    rw [hb2]
    split
    · rfl
    · exact ih b (fun m hm => h m (List.mem_cons_of_mem _ hm))

/-- A move found by the immediate scan comes from the scanned list. -/
theorem scanImmediate_mem (p : Nat) (moves : List (Int × Int)) (b : Board)
    (m : Int × Int) (h : (scanImmediate p moves b).1 = some m) : m ∈ moves := by
  induction moves generalizing b with
  | nil => exact absurd h (by simp [scanImmediate])
  | cons x rest ih =>
    obtain ⟨r, c⟩ := x
    unfold scanImmediate at h
    dsimp only at h
    split at h
    · cases h
      exact List.mem_cons_self _ _
    · exact List.mem_cons_of_mem _ (ih _ h)

/-- Ordering moves permutes them: every ordered move is a candidate. -/
theorem orderMoves_mem (b : Board) (cp : Nat) (mc : Int)
    (moves : List (Int × Int)) (m : Int × Int) (h : m ∈ orderMoves b cp mc moves) :
    m ∈ moves := by
  unfold orderMoves at h
  rcases List.mem_map.mp h with ⟨x, hx, rfl⟩
  rcases List.mem_map.mp (List.mem_insertionSort hscoreGe |>.mp hx) with ⟨y, hy, rfl⟩
  exact hy

/-- The maximizing alpha-beta loop restores the grid and last move: each
placed stone is reverted after the recursive call, on the pruning exit as
well as on normal exit. -/
theorem mmLoopMax_frame (cp : Nat) (zob : Nat → Nat → Nat → Nat)
    (recurse : SearchState → Score → Score → Nat → Score × SearchState)
    (hrec : ∀ s a b h, (recurse s a b h).2.board.grid = s.board.grid
      ∧ (recurse s a b h).2.board.last_move = s.board.last_move)
    (origLast : Option (Int × Int)) (beta : Score) (hash : Nat) :
    ∀ (moves : List (Int × Int)) (maxEval alpha : Score) (st : SearchState),
      (∀ m ∈ moves, gridGet st.board.grid m.1 m.2 = EMPTY) →
      st.board.last_move = origLast →
      (mmLoopMax cp zob recurse origLast beta hash moves maxEval alpha st).2.board.grid
          = st.board.grid
      ∧ (mmLoopMax cp zob recurse origLast beta hash moves maxEval alpha st).2.board.last_move
          = st.board.last_move := by
  intro moves
  induction moves with
  | nil => intro maxEval alpha st _ _; exact ⟨rfl, rfl⟩
  | cons m rest ih =>
    intro maxEval alpha st hmoves hlast
    obtain ⟨r, c⟩ := m
    have hrc : gridGet st.board.grid r c = EMPTY := hmoves (r, c) (List.mem_cons_self _ _)
    unfold mmLoopMax
    dsimp only
    set b1 : Board := { st.board with grid := gridSet st.board.grid r c cp, last_move := some (r, c) } with hb1
    set res := recurse { st with board := b1 } alpha beta (hash ^^^ zob r.toNat c.toNat (zobristIdx cp)) with hresdef
    have hres := hrec { st with board := b1 } alpha beta (hash ^^^ zob r.toNat c.toNat (zobristIdx cp))
    have hg2 : gridSet res.2.board.grid r c EMPTY = st.board.grid := by
      rw [← hresdef] at hres
      rw [hres.1, hb1]
      exact gridSet_restore st.board.grid r c cp hrc
    split
    · exact ⟨by simpa using hg2, by simpa using hlast.symm⟩
    · have hih := ih (Score.maxS maxEval res.1) (Score.maxS alpha res.1)
        { res.2 with board := { res.2.board with grid := gridSet res.2.board.grid r c EMPTY, last_move := origLast } }
        (by
          intro x hx
          dsimp only
          rw [hg2]
          exact hmoves x (List.mem_cons_of_mem _ hx))
        rfl
      refine ⟨?_, ?_⟩
      · rw [hih.1]; dsimp only; rw [hg2]
      · rw [hih.2]; dsimp only; exact hlast.symm ▸ rfl

/-- The minimizing alpha-beta loop restores the grid and last move. -/
theorem mmLoopMin_frame (cp : Nat) (zob : Nat → Nat → Nat → Nat)
    (recurse : SearchState → Score → Score → Nat → Score × SearchState)
    (hrec : ∀ s a b h, (recurse s a b h).2.board.grid = s.board.grid
      ∧ (recurse s a b h).2.board.last_move = s.board.last_move)
    (origLast : Option (Int × Int)) (alpha : Score) (hash : Nat) :
    ∀ (moves : List (Int × Int)) (minEval beta : Score) (st : SearchState),
      (∀ m ∈ moves, gridGet st.board.grid m.1 m.2 = EMPTY) →
      st.board.last_move = origLast →
      (mmLoopMin cp zob recurse origLast alpha hash moves minEval beta st).2.board.grid
          = st.board.grid
      ∧ (mmLoopMin cp zob recurse origLast alpha hash moves minEval beta st).2.board.last_move
          = st.board.last_move := by
  intro moves
  induction moves with
  | nil => intro minEval beta st _ _; exact ⟨rfl, rfl⟩
  | cons m rest ih =>
    intro minEval beta st hmoves hlast
    obtain ⟨r, c⟩ := m
    have hrc : gridGet st.board.grid r c = EMPTY := hmoves (r, c) (List.mem_cons_self _ _)
    unfold mmLoopMin
    dsimp only
    set b1 : Board := { st.board with grid := gridSet st.board.grid r c cp, last_move := some (r, c) } with hb1
    set res := recurse { st with board := b1 } alpha beta (hash ^^^ zob r.toNat c.toNat (zobristIdx cp)) with hresdef
    have hres := hrec { st with board := b1 } alpha beta (hash ^^^ zob r.toNat c.toNat (zobristIdx cp))
    have hg2 : gridSet res.2.board.grid r c EMPTY = st.board.grid := by
      rw [← hresdef] at hres
      rw [hres.1, hb1]
      exact gridSet_restore st.board.grid r c cp hrc
    split
    · exact ⟨by simpa using hg2, by simpa using hlast.symm⟩
    · have hih := ih (Score.minS minEval res.1) (Score.minS beta res.1)
        { res.2 with board := { res.2.board with grid := gridSet res.2.board.grid r c EMPTY, last_move := origLast } }
        (by
          intro x hx
          dsimp only
          rw [hg2]
          exact hmoves x (List.mem_cons_of_mem _ hx))
        rfl
      refine ⟨?_, ?_⟩
      · rw [hih.1]; dsimp only; rw [hg2]
      · rw [hih.2]; dsimp only; exact hlast.symm ▸ rfl

/-- The post-candidate phase of `_minimax` restores the grid and last move:
the win / block scans and the alpha-beta loop all revert their temporary
placements. -/
theorem minimaxExpand_frame (conf : AIConf)
    (recurse : SearchState → Int → Score → Score → Bool → Int → Nat → Score × SearchState)
    (hrec : ∀ s d a b m mmc h, (recurse s d a b m mmc h).2.board.grid = s.board.grid
      ∧ (recurse s d a b m mmc h).2.board.last_move = s.board.last_move)
    (st1 : SearchState) (candidates : List (Int × Int)) (cp op : Nat) (depth : Int)
    (aC bC aO bO : Score) (maximizing : Bool) (mc : Int) (hash : Nat)
    (hcand : ∀ m ∈ candidates, gridGet st1.board.grid m.1 m.2 = EMPTY) :
    (minimaxExpand conf recurse st1 candidates cp op depth aC bC aO bO maximizing mc hash).2.board.grid
        = st1.board.grid
    ∧ (minimaxExpand conf recurse st1 candidates cp op depth aC bC aO bO maximizing mc hash).2.board.last_move
        = st1.board.last_move := by
  have hw2 : (scanImmediate cp candidates st1.board).2 = st1.board :=
    scanImmediate_state cp candidates st1.board hcand
  have hrec1 : ∀ s a b h,
      (recurse s (depth - 1) a b false (mc + 1) h).2.board.grid = s.board.grid
      ∧ (recurse s (depth - 1) a b false (mc + 1) h).2.board.last_move = s.board.last_move :=
    fun s a b h => hrec s (depth - 1) a b false (mc + 1) h
  have hrec2 : ∀ s a b h,
      (recurse s (depth - 1) a b true (mc + 1) h).2.board.grid = s.board.grid
      ∧ (recurse s (depth - 1) a b true (mc + 1) h).2.board.last_move = s.board.last_move :=
    fun s a b h => hrec s (depth - 1) a b true (mc + 1) h
  unfold minimaxExpand
  dsimp only
  rw [hw2]
  by_cases hwm : (scanImmediate cp candidates st1.board).1 = none
  · rw [if_pos hwm]
    have hb2 : (scanImmediate op candidates st1.board).2 = st1.board :=
      scanImmediate_state op candidates st1.board hcand
    rw [hb2, hwm]
    rcases hbm : (scanImmediate op candidates st1.board).1 with _ | mb
    all_goals dsimp only
    · -- no immediate win, no forced block: full ordered candidate loop
      split
      · have hl := mmLoopMax_frame cp conf.zob _ hrec1
          (({ st1 with board := st1.board } : SearchState)).board.last_move bC hash
          (orderMoves (({ st1 with board := st1.board } : SearchState)).board cp mc candidates)
          Score.negInf aC ({ st1 with board := st1.board } : SearchState)
          (by
            intro x hx
            exact hcand x (orderMoves_mem _ cp mc candidates x hx))
          rfl
        exact ⟨hl.1, hl.2⟩
      · have hl := mmLoopMin_frame cp conf.zob _ hrec2
          (({ st1 with board := st1.board } : SearchState)).board.last_move aC hash
          (orderMoves (({ st1 with board := st1.board } : SearchState)).board cp mc candidates)
          Score.posInf bC ({ st1 with board := st1.board } : SearchState)
          (by
            intro x hx
            exact hcand x (orderMoves_mem _ cp mc candidates x hx))
          rfl
        exact ⟨hl.1, hl.2⟩
    · -- forced block move only
      have hmemb : mb ∈ candidates := scanImmediate_mem op candidates st1.board mb hbm
      split
      · have hl := mmLoopMax_frame cp conf.zob _ hrec1
          (({ st1 with board := st1.board } : SearchState)).board.last_move bC hash
          [mb] Score.negInf aC ({ st1 with board := st1.board } : SearchState)
          (by
            intro x hx
            rcases List.mem_singleton.mp hx with rfl
            exact hcand x hmemb)
          rfl
        exact ⟨hl.1, hl.2⟩
      · have hl := mmLoopMin_frame cp conf.zob _ hrec2
          (({ st1 with board := st1.board } : SearchState)).board.last_move aC hash
          [mb] Score.posInf bC ({ st1 with board := st1.board } : SearchState)
          (by
            intro x hx
            rcases List.mem_singleton.mp hx with rfl
            exact hcand x hmemb)
          rfl
        exact ⟨hl.1, hl.2⟩
  · rw [if_neg hwm]
    rcases hws : (scanImmediate cp candidates st1.board).1 with _ | mwin
    · exact absurd hws hwm
    · have hmemw : mwin ∈ candidates := scanImmediate_mem cp candidates st1.board mwin hws
      dsimp only
      split
      · have hl := mmLoopMax_frame cp conf.zob _ hrec1
          (({ st1 with board := st1.board } : SearchState)).board.last_move bC hash
          [mwin] Score.negInf aC ({ st1 with board := st1.board } : SearchState)
          (by
            intro x hx
            rcases List.mem_singleton.mp hx with rfl
            exact hcand x hmemw)
          rfl
        exact ⟨hl.1, hl.2⟩
      · have hl := mmLoopMin_frame cp conf.zob _ hrec2
          (({ st1 with board := st1.board } : SearchState)).board.last_move aC hash
          [mwin] Score.posInf bC ({ st1 with board := st1.board } : SearchState)
          (by
            intro x hx
            rcases List.mem_singleton.mp hx with rfl
            exact hcand x hmemw)
          rfl
        exact ⟨hl.1, hl.2⟩

/-- The whole `_minimax` body (after a transposition lookup) restores the
grid and last move. -/
theorem minimaxMain_frame (conf : AIConf)
    (recurse : SearchState → Int → Score → Score → Bool → Int → Nat → Score × SearchState)
    (hrec : ∀ s d a b m mmc h, (recurse s d a b m mmc h).2.board.grid = s.board.grid
      ∧ (recurse s d a b m mmc h).2.board.last_move = s.board.last_move)
    (st : SearchState) (depth : Int) (aC bC aO bO : Score) (maximizing : Bool)
    (mc : Int) (hash : Nat) :
    (minimaxMain conf recurse st depth aC bC aO bO maximizing mc hash).2.board.grid
        = st.board.grid
    ∧ (minimaxMain conf recurse st depth aC bC aO bO maximizing mc hash).2.board.last_move
        = st.board.last_move := by
  unfold minimaxMain
  dsimp only
  generalize (if maximizing = true then conf.player else conf.opponent) = cp
  generalize (if maximizing = true then conf.opponent else conf.player) = op
  have hgen := genCandidates_state st.board cp mc
  split
  · exact ⟨rfl, rfl⟩
  split
  · exact ⟨rfl, rfl⟩
  split
  · split
    · exact ⟨rfl, rfl⟩
    · exact ⟨rfl, rfl⟩
  split
  · exact ⟨rfl, rfl⟩
  split
  · exact ⟨hgen.1, hgen.2.1⟩
  · have hexp := minimaxExpand_frame conf recurse hrec
      ({ st with board := (genCandidates st.board cp mc).2 } : SearchState)
      (genCandidates st.board cp mc).1 cp op depth aC bC aO bO maximizing mc hash
      (by
        intro x hx
        dsimp only
        rw [hgen.1]
        exact hgen.2.2 x hx)
    refine ⟨?_, ?_⟩
    · rw [hexp.1]; dsimp only; exact hgen.1
    · rw [hexp.2]; dsimp only; exact hgen.2.1

/-- `_minimax` itself, at every fuel and depth, restores the grid and last
move: the transposition lookup's early exits leave the state untouched and
the main body restores it. -/
theorem minimaxGo_frame (conf : AIConf) (fuel : Nat) :
    ∀ (st : SearchState) (depth : Int) (alpha beta : Score) (maximizing : Bool)
      (mc : Int) (hash : Nat),
      (minimaxGo conf fuel st depth alpha beta maximizing mc hash).2.board.grid
          = st.board.grid
      ∧ (minimaxGo conf fuel st depth alpha beta maximizing mc hash).2.board.last_move
          = st.board.last_move := by
  induction fuel with
  | zero => intro st depth alpha beta maximizing mc hash; exact ⟨rfl, rfl⟩
  | succ fuel ih =>
    intro st depth alpha beta maximizing mc hash
    have hrec : ∀ s d a b m mmc h,
        (minimaxGo conf fuel s d a b m mmc h).2.board.grid = s.board.grid
        ∧ (minimaxGo conf fuel s d a b m mmc h).2.board.last_move = s.board.last_move :=
      fun s d a b m mmc h => ih s d a b m mmc h
    unfold minimaxGo
    dsimp only
    split
    · rename_i e heq
      split
      · split
        · exact ⟨rfl, rfl⟩
        · generalize (if e.flag = TTFlag.lowerbound ∧ Score.ltb alpha e.score = true
            then e.score else alpha) = alpha1
          generalize (if e.flag = TTFlag.upperbound ∧ Score.ltb e.score beta = true
            then e.score else beta) = beta1
          split
          · exact ⟨rfl, rfl⟩
          · exact minimaxMain_frame conf _ hrec st depth alpha1 beta1 alpha beta maximizing mc hash
      · exact minimaxMain_frame conf _ hrec st depth alpha beta alpha beta maximizing mc hash
    · exact minimaxMain_frame conf _ hrec st depth alpha beta alpha beta maximizing mc hash

/-! ## Claim theorems -/

/-- C1: every operation that hypothetically places a stone and every search
call restores the shared grid before returning: after a call to
`_is_forbidden(r, c, player)` on an empty cell, and after any call to the
recursive minimax search (any fuel is covered since `minimax` instantiates
`minimaxGo`; any depth, alpha, beta, including early returns via alpha-beta
pruning and transposition hits), the grid array and `last_move` are
bit-identical to their values before the call. -/
theorem claim_C1_undo_discipline
    (b : Board) (r c : Int) (player : Nat)
    (hempty : gridGet b.grid r c = EMPTY)
    (conf : AIConf) (st : SearchState) (depth : Int) (alpha beta : Score)
    (maximizing : Bool) (mc : Int) (hash : Nat) :
    ((b.is_forbidden_priv r c player).2.grid = b.grid
      ∧ (b.is_forbidden_priv r c player).2.last_move = b.last_move)
    ∧ ((minimax conf st depth alpha beta maximizing mc hash).2.board.grid = st.board.grid
      ∧ (minimax conf st depth alpha beta maximizing mc hash).2.board.last_move
          = st.board.last_move) := by
  constructor
  · have h := is_forbidden_priv_state b r c player hempty
    exact ⟨by rw [h], by rw [h]⟩
  · exact minimaxGo_frame conf (depth.toNat + 1) st depth alpha beta maximizing mc hash

/-- Witness for C1 at a concrete empty board, cell and search call. -/
theorem claim_C1_undo_discipline_witness :
    gridGet witnessBoard.grid 2 2 = EMPTY
    ∧ (((witnessBoard.is_forbidden_priv 2 2 BLACK).2.grid = witnessBoard.grid
        ∧ (witnessBoard.is_forbidden_priv 2 2 BLACK).2.last_move = witnessBoard.last_move)
      ∧ ((minimax witnessConf witnessState 1 Score.negInf Score.posInf true 0 0).2.board.grid
            = witnessState.board.grid
        ∧ (minimax witnessConf witnessState 1 Score.negInf Score.posInf true 0 0).2.board.last_move
            = witnessState.board.last_move)) :=
  ⟨by decide,
    claim_C1_undo_discipline witnessBoard 2 2 BLACK (by decide)
      witnessConf witnessState 1 Score.negInf Score.posInf true 0 0⟩

/-- C4: `place_stone` re-validates via `is_valid_move`; on a valid move it
writes the cell, sets `last_move` and returns true; on an invalid move it
returns false and leaves the grid and `last_move` unchanged. -/
theorem claim_C4_place_stone_atomicity (b : Board) (row col : Int) (player : Nat)
    (mc : Int) :
    ((b.place_stone row col player mc).1 = (b.is_valid_move row col player mc).1)
    ∧ ((b.is_valid_move row col player mc).1 = true →
        (b.place_stone row col player mc).2.grid = gridSet b.grid row col player
        ∧ (b.place_stone row col player mc).2.last_move = some (row, col)
        ∧ (b.place_stone row col player mc).1 = true)
    ∧ ((b.is_valid_move row col player mc).1 = false →
        (b.place_stone row col player mc).1 = false
        ∧ (b.place_stone row col player mc).2.grid = b.grid
        ∧ (b.place_stone row col player mc).2.last_move = b.last_move) := by
  have hvs := is_valid_move_state b row col player mc
  unfold Board.place_stone
  dsimp only
  by_cases hv : (b.is_valid_move row col player mc).1 = true
  · rw [if_pos hv]
    refine ⟨hv.symm, fun _ => ⟨?_, rfl, rfl⟩, fun hfalse => absurd hv (by simp [hfalse])⟩
    dsimp only
    rw [hvs.1]
  · rw [if_neg hv]
    exact ⟨(Bool.not_eq_true _).mp hv ▸ rfl,
      fun htrue => absurd htrue hv,
      fun _ => ⟨rfl, hvs.1, hvs.2.1⟩⟩

/-- Witness for C4: a concrete valid placement writes the cell and the last
move, and a concrete invalid placement (occupied cell) changes nothing. -/
theorem claim_C4_place_stone_atomicity_witness :
    (witnessBoard.is_valid_move 1 1 BLACK 5).1 = true
    ∧ ((witnessBoard.place_stone 1 1 BLACK 5).2.grid = gridSet witnessBoard.grid 1 1 BLACK
      ∧ (witnessBoard.place_stone 1 1 BLACK 5).2.last_move = some (1, 1)
      ∧ (witnessBoard.place_stone 1 1 BLACK 5).1 = true)
    ∧ (c3Board.is_valid_move 0 0 BLACK 5).1 = false
    ∧ ((c3Board.place_stone 0 0 BLACK 5).1 = false
      ∧ (c3Board.place_stone 0 0 BLACK 5).2.grid = c3Board.grid
      ∧ (c3Board.place_stone 0 0 BLACK 5).2.last_move = c3Board.last_move) :=
  ⟨by decide,
    (claim_C4_place_stone_atomicity witnessBoard 1 1 BLACK 5).2.1 (by decide),
    by decide,
    (claim_C4_place_stone_atomicity c3Board 0 0 BLACK 5).2.2 (by decide)⟩

/-- C7: board construction fails iff `size < win_length`; for every
`size >= win_length` it succeeds and produces a `size × size` all-empty grid
with `last_move` unset. -/
theorem claim_C7_constructor (size win_length : Nat) :
    (Board.init size win_length = none ↔ size < win_length)
    ∧ (win_length ≤ size → Board.init size win_length = some (emptyBoardN size win_length)) := by
  unfold Board.init emptyBoardN
  by_cases h : size < win_length
  · rw [if_pos h]
    exact ⟨by simp [h], fun hle => absurd h (Nat.not_lt.mpr hle)⟩
  · rw [if_neg h]
    exact ⟨by simp [h], fun _ => rfl⟩

/-- Witness for C7 at concrete sizes: 5 ≥ 5 succeeds with the empty grid. -/
theorem claim_C7_constructor_witness :
    (5 : Nat) ≤ 5 ∧ Board.init 5 5 = some (emptyBoardN 5 5) :=
  ⟨by decide, (claim_C7_constructor 5 5).2 (by decide)⟩

/-- C8 counterexample: constructing `AIHard` without explicit arguments
uses the Python default parameters `depth=3, time_limit_sec=0.8`, not
depth 2 and 1.5 seconds as the claim states. -/
theorem claim_C8_counterexample :
    AIHard.initDefault BLACK
        = { player := BLACK, max_depth := 3, time_limit := (8 / 10 : ℚ) }
    ∧ ¬((AIHard.initDefault BLACK).max_depth = 2
        ∧ (AIHard.initDefault BLACK).time_limit = (15 / 10 : ℚ)) := by
  constructor
  · rfl
  · intro hcl
    exact absurd hcl.1 (by decide)

/-- C8 amended: `AIHard`'s own constructor defaults are depth 3 and a
0.8-second budget; the hard strategy obtained from the `create_ai` factory
is constructed with explicitly passed depth 2 and a 1.5-second budget. -/
theorem claim_C8_amended_hard_defaults (player : Nat) :
    create_ai "hard" player
        = AIInstance.hard { player := player, max_depth := 2, time_limit := (15 / 10 : ℚ) }
    ∧ AIHard.initDefault player
        = { player := player, max_depth := 3, time_limit := (8 / 10 : ℚ) } :=
  ⟨rfl, rfl⟩

/-- C9: for every board whose `win_length` differs from 5, `find_threats`
returns the empty list for every player, regardless of the stones on the
board. -/
theorem claim_C9_threats_disabled (b : Board) (player : Nat)
    (h : b.win_length ≠ 5) : b.find_threats player = [] := by
  unfold Board.find_threats
  rw [if_pos h]

/-- Witness for C9: a `win_length = 4` board holding a Black four still
reports no threats. -/
theorem claim_C9_threats_disabled_witness :
    c9Board.win_length ≠ 5 ∧ c9Board.find_threats BLACK = [] :=
  ⟨by decide, claim_C9_threats_disabled c9Board BLACK (by decide)⟩

/-- C10: the public `is_forbidden` applies no winning-move exemption, so on
`c10Board` — where (7, 7) completes an exact five horizontally plus a
vertical four and a diagonal four — `is_forbidden(7, 7)` reports forbidden
(double four) while `is_valid_move(7, 7, Black, ·)` accepts the move via
`_is_forbidden`'s exact-win exemption. -/
theorem claim_C10_public_private_divergence :
    (c10Board.is_forbidden 7 7).1 = true
    ∧ (c10Board.is_valid_move 7 7 BLACK 8).1 = true := by
  constructor
  · decide
  · decide

/-- The direction loop of `_is_forbidden` returns the winning verdict as
soon as it meets an exact-`win_length` run, provided no earlier direction
broke out with an overline. -/
theorem forbLoop_winning (b1 : Board) (r c : Int) (player : Nat) :
    ∀ (pre : List (Int × Int)) (d : Int × Int) (post : List (Int × Int)) (o3 f4 : Nat),
      lineLenBounded b1 r c d.1 d.2 player = b1.win_length →
      (∀ d' ∈ pre, lineLenBounded b1 r c d'.1 d'.2 player ≤ b1.win_length) →
      forbLoop b1 r c player o3 f4 (pre ++ d :: post) = .winning := by
  intro pre
  induction pre with
  | nil =>
    intro d post o3 f4 hd _
    obtain ⟨dr, dc⟩ := d
    dsimp only at hd
    rw [List.nil_append]
    unfold forbLoop
    dsimp only
    rw [if_neg (by rw [hd]; exact lt_irrefl _), if_pos hd]
  | cons d' pre ih =>
    intro d post o3 f4 hd hpre
    obtain ⟨dr', dc'⟩ := d'
    have hle : lineLenBounded b1 r c dr' dc' player ≤ b1.win_length := by
      have := hpre (dr', dc') (List.mem_cons_self _ _)
      dsimp only at this
      exact this
    show forbLoop b1 r c player o3 f4 ((dr', dc') :: (pre ++ d :: post)) = .winning
    unfold forbLoop
    dsimp only
    rw [if_neg (Nat.not_lt.mpr hle)]
    by_cases heq : lineLenBounded b1 r c dr' dc' player = b1.win_length
    · rw [if_pos heq]
    · rw [if_neg heq]
      exact ih d post _ _ hd (fun x hx => hpre x (List.mem_cons_of_mem _ hx))

/-- C3: in the forbidden-move check used by `is_valid_move` for Black, if
placing Black at an empty in-bounds cell makes some direction's contiguous
run equal exactly `win_length` while no earlier-scanned direction exceeds
`win_length`, the check returns "not forbidden" immediately, so a winning
placement is never rejected as double-three or double-four. -/
theorem claim_C3_exact_win_exemption (b : Board) (r c : Int)
    (hin : b.is_within_bounds r c = true)
    (hemp : gridGet b.grid r c = EMPTY)
    (hwin : ∃ pre d post, DIRECTIONS = pre ++ d :: post
      ∧ lineLenPlaced b r c d.1 d.2 = b.win_length
      ∧ ∀ d' ∈ pre, lineLenPlaced b r c d'.1 d'.2 ≤ b.win_length) :
    (b.is_forbidden_priv r c BLACK).1 = false := by
  obtain ⟨pre, d, post, hdirs, hd, hpre⟩ := hwin
  unfold Board.is_forbidden_priv
  rw [if_neg (by simp)]
  dsimp only
  rw [hdirs, forbLoop_winning _ r c BLACK pre d post 0 0 hd hpre]

/-- Witness for C3: on `c3Board`, placing Black at (0, 4) completes an
exact five in the first-scanned direction and `_is_forbidden` accepts. -/
theorem claim_C3_exact_win_exemption_witness :
    c3Board.is_within_bounds 0 4 = true
    ∧ gridGet c3Board.grid 0 4 = EMPTY
    ∧ (DIRECTIONS = [] ++ ((0 : Int), (1 : Int)) :: [(1, 0), (1, 1), (1, -1)]
      ∧ lineLenPlaced c3Board 0 4 0 1 = c3Board.win_length)
    ∧ (c3Board.is_forbidden_priv 0 4 BLACK).1 = false :=
  ⟨by decide, by decide, ⟨by decide, by decide⟩,
    claim_C3_exact_win_exemption c3Board 0 4 (by decide) (by decide)
      ⟨[], ((0 : Int), (1 : Int)), [(1, 0), (1, 1), (1, -1)], by decide, by decide,
        by simp⟩⟩

/-! ## Helper lemmas for the opening-rule claim -/

theorem list_getD_set_ne {α} (l : List α) (i j : Nat) (a d : α) (h : i ≠ j) :
    (l.set i a).getD j d = l.getD j d := by
  induction l generalizing i j with
  | nil => simp [List.set]
  | cons x t ih =>
    cases i with
    | zero =>
      cases j with
      | zero => exact absurd rfl h
      | succ j2 => simp [List.set, List.getD]
    | succ i2 =>
      cases j with
      | zero => simp [List.set, List.getD]
      | succ j2 =>
        simpa [List.set, List.getD] using ih i2 j2 (fun hij => h (by rw [hij]))

theorem list_getD_replicate {α} (n : Nat) (a : α) (i : Nat) (d : α) :
    (List.replicate n a).getD i d = if i < n then a else d := by
  induction n generalizing i with
  | zero => simp [List.getD]
  | succ n ih =>
    cases i with
    | zero => simp [List.replicate, List.getD]
    | succ j =>
      have hstep : (List.replicate (n + 1) a).getD (j + 1) d
          = (List.replicate n a).getD j d := rfl
      rw [hstep, ih j]
      simp [Nat.succ_lt_succ_iff]

/-- Every cell of the constructor's all-empty grid reads `EMPTY`. -/
theorem gridGet_replicate_empty (n : Nat) (r c : Int) :
    gridGet (List.replicate n (List.replicate n EMPTY)) r c = EMPTY := by
  unfold gridGet
  rw [list_getD_replicate]
  by_cases h : r.toNat < n
  · rw [if_pos h, list_getD_replicate]
    split <;> rfl
  · rw [if_neg h]
    rfl

/-- Reading away from the written cell sees the old grid. -/
theorem gridGet_gridSet_ne (g : List (List Nat)) (R C r' c' : Int) (v : Nat)
    (h : r'.toNat ≠ R.toNat ∨ c'.toNat ≠ C.toNat) :
    gridGet (gridSet g R C v) r' c' = gridGet g r' c' := by
  unfold gridGet gridSet
  rcases h with h | h
  · rw [list_getD_set_ne _ _ _ _ _ (fun hh => h hh.symm)]
  · by_cases hr : r'.toNat = R.toNat
    · rw [hr, list_getD_set_self]
      by_cases hR : R.toNat < g.length
      · rw [if_pos hR, list_getD_set_ne _ _ _ _ _ (fun hh => h hh.symm)]
      · rw [if_neg hR]
        have hnone : g.getD R.toNat [] = [] := by
          rw [List.getD_eq_getElem?_getD, List.getElem?_eq_none (Nat.le_of_not_lt hR)]
          rfl
        rw [hnone]
    · rw [list_getD_set_ne _ _ _ _ _ (fun hh => hr hh.symm)]

/-- A directional scan that fails its very first test counts zero. -/
theorem scanDir_fst_zero (b : Board) (player : Nat) (dr dc : Int) (fuel : Nat)
    (cr cc : Int)
    (h : ¬(b.is_within_bounds cr cc = true ∧ gridGet b.grid cr cc = player)) :
    (scanDir b player dr dc fuel cr cc).1 = 0 := by
  cases fuel with
  | zero => rfl
  | succ f =>
    unfold scanDir
    rw [if_neg h]

/-- When every direction's run through `(r, c)` has length 1 and the win
length is at least 2, the `_is_forbidden` direction loop tallies nothing. -/
theorem forbLoop_all_ones (b1 : Board) (r c : Int) (player : Nat)
    (hwl : 2 ≤ b1.win_length) :
    ∀ (dirs : List (Int × Int)),
      (∀ d ∈ dirs, lineLenBounded b1 r c d.1 d.2 player = 1) →
      (∀ d ∈ dirs, (b1.count_line_details r c d.1 d.2 player).1 = 1) →
      ∀ o3 f4, forbLoop b1 r c player o3 f4 dirs = .done o3 f4 := by
  intro dirs
  induction dirs with
  | nil => intro _ _ o3 f4; rfl
  | cons d rest ih =>
    intro hcount hdet o3 f4
    obtain ⟨dr, dc⟩ := d
    have hc1 : lineLenBounded b1 r c dr dc player = 1 := by
      have := hcount (dr, dc) (List.mem_cons_self _ _)
      exact this
    have hd1 : (b1.count_line_details r c dr dc player).1 = 1 := by
      have := hdet (dr, dc) (List.mem_cons_self _ _)
      exact this
    unfold forbLoop
    dsimp only
    rw [if_neg (by rw [hc1]; omega), if_neg (by rw [hc1]; omega)]
    rw [if_neg (by rw [hd1]; omega), if_neg (by rw [hd1]; omega)]
    exact ih (fun x hx => hcount x (List.mem_cons_of_mem _ hx))
      (fun x hx => hdet x (List.mem_cons_of_mem _ hx)) o3 f4

/-- C6 counterexample: the claim quantifies over every board size ≥ 5, but
on the even size 6 (where `center` is `None` and the opening restrictions
are skipped) the non-centre cell (0, 0) is a valid first move. -/
theorem claim_C6_counterexample :
    Board.init 6 5 = some (emptyBoardN 6 5)
    ∧ 5 ≤ (emptyBoardN 6 5).size
    ∧ ((emptyBoardN 6 5).is_valid_move 0 0 WHITE 0).1 = true
    ∧ ¬(((0 : Int), (0 : Int)) = (((6 / 2 : Nat) : Int), ((6 / 2 : Nat) : Int))) := by
  refine ⟨rfl, by decide, by decide, by decide⟩

/-- A run whose both first neighbours fail the scan test has length 1. -/
theorem lineLenBounded_one (b : Board) (r c dr dc : Int) (player : Nat)
    (hpos : ¬(b.is_within_bounds (r + dr) (c + dc) = true
      ∧ gridGet b.grid (r + dr) (c + dc) = player))
    (hneg : ¬(b.is_within_bounds (r + -dr) (c + -dc) = true
      ∧ gridGet b.grid (r + -dr) (c + -dc) = player)) :
    lineLenBounded b r c dr dc player = 1 := by
  unfold lineLenBounded scanCount
  rw [scanDir_fst_zero b player dr dc _ _ _ hpos,
    scanDir_fst_zero b player (-dr) (-dc) _ _ _ hneg]

/-- `_count_line_details` counts 1 when both first neighbours fail the
scan test. -/
theorem count_line_details_fst_one (b : Board) (r c dr dc : Int) (player : Nat)
    (hpos : ¬(b.is_within_bounds (r + dr) (c + dc) = true
      ∧ gridGet b.grid (r + dr) (c + dc) = player))
    (hneg : ¬(b.is_within_bounds (r - dr) (c - dc) = true
      ∧ gridGet b.grid (r - dr) (c - dc) = player)) :
    (b.count_line_details r c dr dc player).1 = 1 := by
  unfold Board.count_line_details
  dsimp only
  rw [scanDir_fst_zero b player dr dc _ _ _ hpos,
    scanDir_fst_zero b player (-dr) (-dc) _ _ _ hneg]

/-- A lone Black stone on an otherwise empty board is never a forbidden
placement (for any win length at least 1). -/
theorem emptyBoard_lone_stone_not_forbidden (size wl : Nat) (hwl : 1 ≤ wl)
    (k : Nat) (hk : 1 ≤ k) :
    ((emptyBoardN size wl).is_forbidden_priv (k : Int) (k : Int) BLACK).1 = false := by
  unfold Board.is_forbidden_priv
  rw [if_neg (by simp)]
  dsimp only
  set B1 : Board := { emptyBoardN size wl with
    grid := gridSet (emptyBoardN size wl).grid (k : Int) (k : Int) BLACK } with hB1
  have hcell : ∀ (x y : Int), (x.toNat ≠ k ∨ y.toNat ≠ k) →
      gridGet B1.grid x y = EMPTY := by
    intro x y hdiff
    show gridGet (gridSet (emptyBoardN size wl).grid (k : Int) (k : Int) BLACK) x y = EMPTY
    have hdiff2 : x.toNat ≠ ((k : Int)).toNat ∨ y.toNat ≠ ((k : Int)).toNat := by
      rcases hdiff with h | h
      · exact Or.inl (by omega)
      · exact Or.inr (by omega)
    rw [gridGet_gridSet_ne _ _ _ _ _ _ hdiff2]
    exact gridGet_replicate_empty size x y
  have hnot : ∀ (x y : Int), (x.toNat ≠ k ∨ y.toNat ≠ k) →
      ¬(B1.is_within_bounds x y = true ∧ gridGet B1.grid x y = BLACK) := by
    intro x y hdiff hand
    rw [hcell x y hdiff] at hand
    exact absurd hand.2 (by decide)
  have hLL : ∀ d ∈ DIRECTIONS, lineLenBounded B1 (k : Int) (k : Int) d.1 d.2 BLACK = 1 := by
    intro d hd
    have hd4 : d = ((0 : Int), (1 : Int)) ∨ d = (1, 0) ∨ d = (1, 1) ∨ d = (1, -1) := by
      simpa [DIRECTIONS] using hd
    rcases hd4 with rfl | rfl | rfl | rfl
    · exact lineLenBounded_one B1 _ _ _ _ BLACK
        (hnot _ _ (Or.inr (by omega))) (hnot _ _ (Or.inr (by omega)))
    · exact lineLenBounded_one B1 _ _ _ _ BLACK
        (hnot _ _ (Or.inl (by omega))) (hnot _ _ (Or.inl (by omega)))
    · exact lineLenBounded_one B1 _ _ _ _ BLACK
        (hnot _ _ (Or.inl (by omega))) (hnot _ _ (Or.inl (by omega)))
    · exact lineLenBounded_one B1 _ _ _ _ BLACK
        (hnot _ _ (Or.inl (by omega))) (hnot _ _ (Or.inl (by omega)))
  have hDET : ∀ d ∈ DIRECTIONS,
      (B1.count_line_details (k : Int) (k : Int) d.1 d.2 BLACK).1 = 1 := by
    intro d hd
    have hd4 : d = ((0 : Int), (1 : Int)) ∨ d = (1, 0) ∨ d = (1, 1) ∨ d = (1, -1) := by
      simpa [DIRECTIONS] using hd
    rcases hd4 with rfl | rfl | rfl | rfl
    · exact count_line_details_fst_one B1 _ _ _ _ BLACK
        (hnot _ _ (Or.inr (by omega))) (hnot _ _ (Or.inr (by omega)))
    · exact count_line_details_fst_one B1 _ _ _ _ BLACK
        (hnot _ _ (Or.inl (by omega))) (hnot _ _ (Or.inl (by omega)))
    · exact count_line_details_fst_one B1 _ _ _ _ BLACK
        (hnot _ _ (Or.inl (by omega))) (hnot _ _ (Or.inl (by omega)))
    · exact count_line_details_fst_one B1 _ _ _ _ BLACK
        (hnot _ _ (Or.inl (by omega))) (hnot _ _ (Or.inl (by omega)))
  by_cases h2 : 2 ≤ wl
  · rw [forbLoop_all_ones B1 (k : Int) (k : Int) BLACK h2 DIRECTIONS hLL hDET 0 0]
    rfl
  · have h1 : wl = 1 := by omega
    rw [show DIRECTIONS = ([] : List (Int × Int))
        ++ ((0 : Int), (1 : Int)) :: [((1 : Int), (0 : Int)), (1, 1), (1, -1)] from rfl]
    rw [forbLoop_winning B1 (k : Int) (k : Int) BLACK []
      ((0 : Int), (1 : Int)) [((1 : Int), (0 : Int)), (1, 1), (1, -1)] 0 0
      ((hLL ((0 : Int), (1 : Int)) (by simp [DIRECTIONS])).trans (by exact h1.symm))
      (by simp)]

/-- C6 amended: on an empty board with odd size at least 5, a positive win
length, and `move_count = 0`, `is_valid_move` accepts exactly the centre
cell `(size // 2, size // 2)` for every player.  (On even sizes `center` is
`None` and the restriction does not apply, per the counterexample.) -/
theorem claim_C6_amended_opening_center (size wl : Nat)
    (hsize : 5 ≤ size) (hodd : size % 2 = 1) (hwl : 1 ≤ wl)
    (r c : Int) (player : Nat) :
    ((emptyBoardN size wl).is_valid_move r c player 0).1 = true
      ↔ (r = ((size / 2 : Nat) : Int) ∧ c = ((size / 2 : Nat) : Int)) := by
  have hemp : ∀ (x y : Int), gridGet (emptyBoardN size wl).grid x y = EMPTY :=
    fun x y => gridGet_replicate_empty size x y
  have hcenter : (emptyBoardN size wl).center
      = some (((size / 2 : Nat) : Int), ((size / 2 : Nat) : Int)) := by
    unfold Board.center
    rw [if_pos (by simp [emptyBoardN, hodd])]
    rfl
  have hshukei : (emptyBoardN size wl).shukei_ok r c 0
      = ((r, c) == (((size / 2 : Nat) : Int), ((size / 2 : Nat) : Int))) := by
    unfold Board.shukei_ok
    rw [hcenter]
    dsimp only
    rw [if_neg (by simp only [emptyBoardN]; omega), if_pos (by decide)]
  constructor
  · intro hval
    unfold Board.is_valid_move at hval
    by_cases hbnd : (emptyBoardN size wl).is_within_bounds r c = true
    · rw [if_neg (not_not_intro hbnd)] at hval
      rw [if_neg (not_not_intro (by simp [Board.is_empty, hemp r c]))] at hval
      by_cases hsh : (emptyBoardN size wl).shukei_ok r c 0 = true
      · rw [hshukei] at hsh
        have heq := eq_of_beq hsh
        exact ⟨congrArg Prod.fst heq, congrArg Prod.snd heq⟩
      · rw [if_pos hsh] at hval
        simp at hval
    · rw [if_pos hbnd] at hval
      simp at hval
  · rintro ⟨rfl, rfl⟩
    have hk1 : 1 ≤ size / 2 := by omega
    unfold Board.is_valid_move
    rw [if_neg (not_not_intro (by
      simp only [Board.is_within_bounds, emptyBoardN, decide_eq_true_eq]
      omega))]
    rw [if_neg (not_not_intro (by simp [Board.is_empty, hemp]))]
    rw [if_neg (not_not_intro (by rw [hshukei]; exact beq_self_eq_true _))]
    by_cases hp : player = BLACK
    · subst hp
      rw [if_pos rfl]
      dsimp only
      rw [emptyBoard_lone_stone_not_forbidden size wl hwl (size / 2) hk1]
      rfl
    · rw [if_neg hp]

/-- Witness for the amended C6 at size 5, win length 5. -/
theorem claim_C6_amended_witness :
    (5 : Nat) ≤ 5 ∧ (5 : Nat) % 2 = 1 ∧ (1 : Nat) ≤ 5
    ∧ (((emptyBoardN 5 5).is_valid_move 2 2 WHITE 0).1 = true
        ↔ ((2 : Int) = (((5 : Nat) / 2 : Nat) : Int)
          ∧ (2 : Int) = (((5 : Nat) / 2 : Nat) : Int))) :=
  ⟨by decide, by decide, by decide,
    claim_C6_amended_opening_center 5 5 (by decide) (by decide) (by decide) 2 2 WHITE⟩

/-! ## Threat-scanner dedup invariant -/

/-- `add_threat_if_valid` preserves the dedup invariant: a new record is
appended only when its stone set is absent from the processed sets, which
contain the sets of all recorded threats. -/
theorem addThreatIfValid_inv (b : Board) (p : Nat) (r c : Int) (plen : Nat)
    (ttype : Nat) (dchar : String) (acc : ThreatAcc) (h : ThreatInv acc) :
    ThreatInv (addThreatIfValid b p r c plen ttype dchar acc) := by
  unfold addThreatIfValid
  dsimp only
  split
  · exact h
  split
  · exact h
  split
  · exact h
  next hstones hne hnotmem =>
    constructor
    · rw [List.pairwise_append]
      refine ⟨h.1, List.pairwise_singleton _ _, ?_⟩
      intro a ha t ht
      rcases List.mem_singleton.mp ht with rfl
      intro heq
      exact hnotmem (heq ▸ h.2 a ha)
    · intro t ht
      rcases List.mem_append.mp ht with ht1 | ht1
      · exact List.mem_cons_of_mem _ (h.2 t ht1)
      · rcases List.mem_singleton.mp ht1 with rfl
        exact List.mem_cons_self _ _

/-- A conditional `add_threat_if_valid` preserves the dedup invariant. -/
theorem addThreat_ite_inv (b : Board) (p : Nat) (r c : Int) (plen : Nat)
    (ttype : Nat) (dchar : String) (cond : Prop) [Decidable cond]
    (acc : ThreatAcc) (h : ThreatInv acc) :
    ThreatInv (if cond then addThreatIfValid b p r c plen ttype dchar acc else acc) := by
  split
  · exact addThreatIfValid_inv b p r c plen ttype dchar acc h
  · exact h

/-- One cell-and-pattern step of `find_threats` preserves the dedup
invariant through its four directional checks. -/
theorem checkPatternAt_inv (b : Board) (p : Nat) (r c : Nat) (acc : ThreatAcc)
    (entry : Nat × List Nat) (h : ThreatInv acc) :
    ThreatInv (checkPatternAt b p r c acc entry) := by
  unfold checkPatternAt
  dsimp only
  apply addThreat_ite_inv
  apply addThreat_ite_inv
  apply addThreat_ite_inv
  apply addThreat_ite_inv
  exact h

/-- C5: `find_threats(player)` never reports two threat records with the
same set of participating stone coordinates: uniqueness is keyed on the
stone-coordinate set. -/
theorem claim_C5_threat_dedup (b : Board) (player : Nat) :
    (b.find_threats player).Pairwise
      (fun t1 t2 => t1.stones.toFinset ≠ t2.stones.toFinset) := by
  unfold Board.find_threats
  split
  · exact List.Pairwise.nil
  · dsimp only
    have hinv : ThreatInv ((List.range b.size).foldl
        (fun acc r =>
          (List.range b.size).foldl
            (fun acc c =>
              (patternsToCheck player (if player = BLACK then WHITE else BLACK)).foldl
                (fun acc entry => checkPatternAt b player r c acc entry) acc)
            acc)
        (([], []) : ThreatAcc)) := by
      refine foldl_inv (P := ThreatInv) _ _ _ ⟨List.Pairwise.nil, by simp⟩ ?_
      intro acc r _ hacc
      refine foldl_inv (P := ThreatInv) _ _ _ hacc ?_
      intro acc2 c _ hacc2
      refine foldl_inv (P := ThreatInv) _ _ _ hacc2 ?_
      intro acc3 entry _ hacc3
      exact checkPatternAt_inv b player r c acc3 entry hacc3
    exact hinv.1

/-! ## `check_win` correctness -/

theorem lexLe_refl (a : Int × Int) : lexLe a a := Or.inr ⟨rfl, le_refl _⟩

instance : IsTotal (Int × Int) lexLe := by
  constructor
  intro a b
  obtain ⟨a1, a2⟩ := a
  obtain ⟨b1, b2⟩ := b
  unfold lexLe
  dsimp only
  omega

instance : IsTrans (Int × Int) lexLe := by
  constructor
  intro a b c hab hbc
  obtain ⟨a1, a2⟩ := a
  obtain ⟨b1, b2⟩ := b
  obtain ⟨c1, c2⟩ := c
  unfold lexLe at hab hbc ⊢
  dsimp only at hab hbc ⊢
  omega

theorem headD_mem {α} (l : List α) (d : α) (h : l ≠ []) : l.headD d ∈ l := by
  cases l with
  | nil => exact absurd rfl h
  | cons a t => exact List.mem_cons_self a t

theorem getLastD_mem {α} : ∀ (l : List α) (d : α), l ≠ [] → l.getLastD d ∈ l := by
  intro l
  induction l with
  | nil => intro d h; exact absurd rfl h
  | cons a t ih =>
    intro d _
    rw [List.getLastD_cons]
    cases t with
    | nil => exact List.mem_cons_self _ _
    | cons b t2 => exact List.mem_cons_of_mem _ (ih a (by simp))

/-- The head of a lexicographically sorted list is below every element. -/
theorem sorted_headD_le (l : List (Int × Int)) (d : Int × Int)
    (hs : List.Sorted lexLe l) : ∀ x ∈ l, lexLe (l.headD d) x := by
  cases l with
  | nil => intro x hx; simp at hx
  | cons a t =>
    intro x hx
    rcases List.mem_cons.mp hx with rfl | hx2
    · exact lexLe_refl x
    · exact (List.sorted_cons.mp hs).1 x hx2

/-- Every element of a lexicographically sorted list is below its last. -/
theorem sorted_le_getLastD : ∀ (l : List (Int × Int)) (d : Int × Int),
    List.Sorted lexLe l → ∀ x ∈ l, lexLe x (l.getLastD d) := by
  intro l
  induction l with
  | nil => intro d _ x hx; simp at hx
  | cons a t ih =>
    intro d hs x hx
    rw [List.getLastD_cons]
    obtain ⟨ha, hst⟩ := List.sorted_cons.mp hs
    rcases List.mem_cons.mp hx with rfl | hx2
    · cases t with
      | nil => exact lexLe_refl x
      | cons b t2 =>
        exact Trans.trans (ha b (List.mem_cons_self _ _))
          (ih x hst b (List.mem_cons_self _ _))
    · exact ih a hst x hx2

/-- The coordinate-collecting loop counts exactly what the counting loop
counts. -/
theorem collectDir_length (b : Board) (player : Nat) (dr dc : Int) :
    ∀ (fuel : Nat) (cr cc : Int),
      (collectDir b player dr dc fuel cr cc).length
        = (scanDir b player dr dc fuel cr cc).1 := by
  intro fuel
  induction fuel with
  | zero => intro cr cc; rfl
  | succ f ih =>
    intro cr cc
    unfold collectDir scanDir
    by_cases hc : (b.is_within_bounds cr cc = true ∧ gridGet b.grid cr cc = player)
    · rw [if_pos hc, if_pos hc]
      rcases hsd : scanDir b player dr dc f (cr + dr) (cc + dc) with ⟨n, er, ec⟩
      have hlen := ih (cr + dr) (cc + dc)
      rw [hsd] at hlen
      simp [hlen]
    · rw [if_neg hc, if_neg hc]
      rfl

/-- The run-coordinate list has exactly `_count_line_length` elements. -/
theorem runCoords_length (b : Board) (player : Nat) (r c dr dc : Int) :
    (runCoords b player r c dr dc).length
      = b.count_line_length r c dr dc player := by
  unfold runCoords Board.count_line_length scanCount
  rw [List.length_cons, List.length_append, collectDir_length, collectDir_length]
  rw [show r - dr = r + -dr from sub_eq_add_neg r dr,
    show c - dc = c + -dc from sub_eq_add_neg c dc]
  omega

/-- The `check_win` direction loop succeeds iff some listed direction's run
reaches `win_length`, and on success returns that run's lexicographic
extremes (its geometric endpoints, since each scan direction is increasing
in lexicographic order) together with the direction. -/
theorem checkWinLoop_spec (b : Board) (player : Nat) (r c : Int) :
    ∀ dirs : List (Int × Int),
      (((checkWinLoop b player r c dirs).1 = true)
        ↔ ∃ d ∈ dirs, b.win_length ≤ (runCoords b player r c d.1 d.2).length)
      ∧ (∀ s e d, (checkWinLoop b player r c dirs).2 = some (s, e, d) →
          d ∈ dirs
          ∧ b.win_length ≤ (runCoords b player r c d.1 d.2).length
          ∧ s ∈ runCoords b player r c d.1 d.2
          ∧ e ∈ runCoords b player r c d.1 d.2
          ∧ (∀ x ∈ runCoords b player r c d.1 d.2, lexLe s x ∧ lexLe x e)) := by
  intro dirs
  induction dirs with
  | nil =>
    refine ⟨⟨fun h => absurd h (by simp [checkWinLoop]), ?_⟩, ?_⟩
    · rintro ⟨d, hd, _⟩
      simp at hd
    · intro s e d h
      exact absurd h (by simp [checkWinLoop])
  | cons d0 rest ih =>
    obtain ⟨dr, dc⟩ := d0
    unfold checkWinLoop
    dsimp only
    by_cases hcond : b.win_length ≤ ((r, c) :: (collectDir b player dr dc b.size (r + dr) (c + dc) ++ collectDir b player (-dr) (-dc) b.size (r - dr) (c - dc))).length
    · rw [if_pos hcond]
      have hlc : ((r, c) :: (collectDir b player dr dc b.size (r + dr) (c + dc) ++ collectDir b player (-dr) (-dc) b.size (r - dr) (c - dc))) = runCoords b player r c dr dc := rfl
      have hperm := List.perm_insertionSort lexLe ((r, c) :: (collectDir b player dr dc b.size (r + dr) (c + dc) ++ collectDir b player (-dr) (-dc) b.size (r - dr) (c - dc)))
      have hsorted := List.sorted_insertionSort lexLe ((r, c) :: (collectDir b player dr dc b.size (r + dr) (c + dc) ++ collectDir b player (-dr) (-dc) b.size (r - dr) (c - dc)))
      have hnil : List.insertionSort lexLe ((r, c) :: (collectDir b player dr dc b.size (r + dr) (c + dc) ++ collectDir b player (-dr) (-dc) b.size (r - dr) (c - dc))) ≠ [] := by
        intro hs
        have := hperm.length_eq
        rw [hs] at this
        simp at this
      constructor
      · constructor
        · intro _
          refine ⟨(dr, dc), List.mem_cons_self _ _, ?_⟩
          dsimp only
          rw [← hlc]
          exact hcond
        · intro _
          rfl
      · intro s e d hsome
        have hinj := Option.some.inj hsome
        obtain ⟨hs, he, hd⟩ : (List.insertionSort lexLe ((r, c) :: (collectDir b player dr dc b.size (r + dr) (c + dc) ++ collectDir b player (-dr) (-dc) b.size (r - dr) (c - dc)))).headD (r, c) = s ∧ (List.insertionSort lexLe ((r, c) :: (collectDir b player dr dc b.size (r + dr) (c + dc) ++ collectDir b player (-dr) (-dc) b.size (r - dr) (c - dc)))).getLastD (r, c) = e ∧ ((dr, dc) : Int × Int) = d := by
          have h1 := congrArg Prod.fst hinj
          have h2 := congrArg (fun p => p.2.1) hinj
          have h3 := congrArg (fun p => p.2.2) hinj
          exact ⟨h1, h2, h3⟩
        subst hs
        subst he
        subst hd
        refine ⟨List.mem_cons_self _ _, ?_, ?_, ?_, ?_⟩
        · dsimp only
          rw [← hlc]
          exact hcond
        · dsimp only
          rw [← hlc]
          exact (List.mem_insertionSort lexLe).mp (headD_mem _ _ hnil)
        · dsimp only
          rw [← hlc]
          exact (List.mem_insertionSort lexLe).mp (getLastD_mem _ _ hnil)
        · intro x hx
          dsimp only at hx
          rw [← hlc] at hx
          have hxs : x ∈ List.insertionSort lexLe ((r, c) :: (collectDir b player dr dc b.size (r + dr) (c + dc) ++ collectDir b player (-dr) (-dc) b.size (r - dr) (c - dc))) :=
            (List.mem_insertionSort lexLe).mpr hx
          exact ⟨sorted_headD_le _ _ hsorted x hxs, sorted_le_getLastD _ _ hsorted x hxs⟩
    · rw [if_neg hcond]
      have hlc : ((r, c) :: (collectDir b player dr dc b.size (r + dr) (c + dc) ++ collectDir b player (-dr) (-dc) b.size (r - dr) (c - dc))) = runCoords b player r c dr dc := rfl
      constructor
      · constructor
        · intro h
          obtain ⟨d, hd, hlen⟩ := ih.1.mp h
          exact ⟨d, List.mem_cons_of_mem _ hd, hlen⟩
        · rintro ⟨d, hd, hlen⟩
          rcases List.mem_cons.mp hd with rfl | hd2
          · dsimp only at hlen
            rw [← hlc] at hlen
            exact absurd hlen hcond
          · exact ih.1.mpr ⟨d, hd2, hlen⟩
      · intro s e d h
        have hrest := ih.2 s e d h
        exact ⟨List.mem_cons_of_mem _ hrest.1, hrest.2⟩

/-- The coordinate-collecting loop visits exactly the arithmetic
progression of scanned cells. -/
theorem collectDir_shape (b : Board) (player : Nat) (dr dc : Int) :
    ∀ (fuel : Nat) (cr cc : Int),
      collectDir b player dr dc fuel cr cc
        = (List.range (scanDir b player dr dc fuel cr cc).1).map
            (fun i : Nat => (cr + (i : Int) * dr, cc + (i : Int) * dc)) := by
  intro fuel
  induction fuel with
  | zero => intro cr cc; rfl
  | succ f ih =>
    intro cr cc
    unfold collectDir scanDir
    by_cases hc : (b.is_within_bounds cr cc = true ∧ gridGet b.grid cr cc = player)
    · rw [if_pos hc, if_pos hc]
      rcases hsd : scanDir b player dr dc f (cr + dr) (cc + dc) with ⟨n, er, ec⟩
      dsimp only
      have hih := ih (cr + dr) (cc + dc)
      rw [hsd] at hih
      rw [hih, List.range_succ_eq_map, List.map_cons, List.map_map]
      congr 1
      · simp
      · apply List.map_congr_left
        intro i _
        simp only [Function.comp_apply, Prod.mk.injEq]
        constructor
        · push_cast
          ring
        · push_cast
          ring
    · rw [if_neg hc, if_neg hc]
      rfl

/-- Membership in the run-coordinate list, in closed arithmetic form. -/
theorem mem_runCoords (b : Board) (player : Nat) (r c dr dc : Int) (x : Int × Int) :
    x ∈ runCoords b player r c dr dc
      ↔ x = (r, c)
        ∨ (∃ i : Nat, i < posRun b player r c dr dc
            ∧ x = (r + ((i : Int) + 1) * dr, c + ((i : Int) + 1) * dc))
        ∨ (∃ j : Nat, j < negRun b player r c dr dc
            ∧ x = (r - ((j : Int) + 1) * dr, c - ((j : Int) + 1) * dc)) := by
  unfold runCoords posRun negRun
  rw [collectDir_shape, collectDir_shape]
  simp only [List.mem_cons, List.mem_append, List.mem_map, List.mem_range]
  apply or_congr Iff.rfl
  apply or_congr
  · constructor
    · rintro ⟨i, hi, rfl⟩
      refine ⟨i, hi, ?_⟩
      rw [Prod.mk.injEq]
      constructor
      · ring
      · ring
    · rintro ⟨i, hi, rfl⟩
      refine ⟨i, hi, ?_⟩
      rw [Prod.mk.injEq]
      constructor
      · ring
      · ring
  · constructor
    · rintro ⟨j, hj, rfl⟩
      refine ⟨j, hj, ?_⟩
      rw [Prod.mk.injEq]
      constructor
      · ring
      · ring
    · rintro ⟨j, hj, rfl⟩
      refine ⟨j, hj, ?_⟩
      rw [Prod.mk.injEq]
      constructor
      · ring
      · ring

theorem lexLe_antisymm {a b : Int × Int} (h1 : lexLe a b) (h2 : lexLe b a) :
    a = b := by
  obtain ⟨a1, a2⟩ := a
  obtain ⟨b1, b2⟩ := b
  unfold lexLe at h1 h2
  dsimp only at h1 h2
  rw [Prod.mk.injEq]
  omega

/-- The negative-sense extreme cell of a run is a run coordinate. -/
theorem runCoords_min_mem (b : Board) (player : Nat) (r c dr dc : Int) :
    (r - (negRun b player r c dr dc : Int) * dr,
      c - (negRun b player r c dr dc : Int) * dc) ∈ runCoords b player r c dr dc := by
  rw [mem_runCoords]
  cases hM : negRun b player r c dr dc with
  | zero =>
    left
    rw [Prod.mk.injEq]
    constructor
    · simp
    · simp
  | succ j =>
    right; right
    refine ⟨j, by omega, ?_⟩
    rw [Prod.mk.injEq]
    constructor
    · push_cast
      ring
    · push_cast
      ring

/-- The positive-sense extreme cell of a run is a run coordinate. -/
theorem runCoords_max_mem (b : Board) (player : Nat) (r c dr dc : Int) :
    (r + (posRun b player r c dr dc : Int) * dr,
      c + (posRun b player r c dr dc : Int) * dc) ∈ runCoords b player r c dr dc := by
  rw [mem_runCoords]
  cases hP : posRun b player r c dr dc with
  | zero =>
    left
    rw [Prod.mk.injEq]
    constructor
    · simp
    · simp
  | succ i =>
    right; left
    refine ⟨i, by omega, ?_⟩
    rw [Prod.mk.injEq]
    constructor
    · push_cast
      ring
    · push_cast
      ring

/-- For each of the four scan directions (all lexicographically increasing),
the negative-sense extreme is a lexicographic lower bound and the
positive-sense extreme a lexicographic upper bound of the run. -/
theorem runCoords_min_le_max (b : Board) (player : Nat) (r c dr dc : Int)
    (hd : ((dr, dc) : Int × Int) ∈ DIRECTIONS) :
    ∀ x ∈ runCoords b player r c dr dc,
      lexLe (r - (negRun b player r c dr dc : Int) * dr,
        c - (negRun b player r c dr dc : Int) * dc) x
      ∧ lexLe x (r + (posRun b player r c dr dc : Int) * dr,
        c + (posRun b player r c dr dc : Int) * dc) := by
  intro x hx
  rw [mem_runCoords] at hx
  obtain ⟨x1, x2⟩ := x
  have hd4 : ((dr, dc) : Int × Int) = (0, 1) ∨ ((dr, dc) : Int × Int) = (1, 0)
      ∨ ((dr, dc) : Int × Int) = (1, 1) ∨ ((dr, dc) : Int × Int) = (1, -1) := by
    simpa [DIRECTIONS] using hd
  have hM : (0 : Int) ≤ (negRun b player r c dr dc : Int) := Int.natCast_nonneg _
  have hP : (0 : Int) ≤ (posRun b player r c dr dc : Int) := Int.natCast_nonneg _
  rcases hd4 with hdir | hdir | hdir | hdir <;>
    rw [Prod.mk.injEq] at hdir <;>
    obtain ⟨rfl, rfl⟩ := hdir <;>
    unfold lexLe <;>
    dsimp only <;>
    rcases hx with hx | ⟨i, hi, hx⟩ | ⟨j, hj, hx⟩ <;>
    rw [Prod.mk.injEq] at hx <;>
    obtain ⟨rfl, rfl⟩ := hx <;>
    constructor <;>
    omega

/-- `_count_line_length` is 1 plus the two directional run counts of
`check_win`. -/
theorem count_line_length_eq_runs (b : Board) (player : Nat) (r c dr dc : Int) :
    b.count_line_length r c dr dc player
      = 1 + posRun b player r c dr dc + negRun b player r c dr dc := by
  unfold Board.count_line_length scanCount posRun negRun
  rw [show r - dr = r + -dr from sub_eq_add_neg r dr,
    show c - dc = c + -dc from sub_eq_add_neg c dc]

/-- C2: `check_win(player)` returns no-win when there is no last move or
the last-move cell does not hold `player`; otherwise it reports a win
exactly when some direction's contiguous run through the last move reaches
`win_length` (uncapped, so overlines count), and on a win the returned info
holds a scanned direction whose run reaches `win_length` together with that
run's two endpoint coordinates — literally `(r, c) - negRun · d` and
`(r, c) + posRun · d`, the extreme cells of the run whose length is
`1 + posRun + negRun` — and the direction vector. -/
theorem claim_C2_check_win (b : Board) (player : Nat) :
    (b.last_move = none → b.check_win player = (false, none))
    ∧ (∀ r c, b.last_move = some (r, c) → gridGet b.grid r c ≠ player →
        b.check_win player = (false, none))
    ∧ (∀ r c, b.last_move = some (r, c) → gridGet b.grid r c = player →
        (((b.check_win player).1 = true)
          ↔ ∃ d ∈ DIRECTIONS, b.win_length ≤ b.count_line_length r c d.1 d.2 player)
        ∧ (∀ s e d, (b.check_win player).2 = some (s, e, d) →
            d ∈ DIRECTIONS
            ∧ b.win_length ≤ b.count_line_length r c d.1 d.2 player
            ∧ b.count_line_length r c d.1 d.2 player
                = 1 + posRun b player r c d.1 d.2 + negRun b player r c d.1 d.2
            ∧ s = (r - (negRun b player r c d.1 d.2 : Int) * d.1,
                   c - (negRun b player r c d.1 d.2 : Int) * d.2)
            ∧ e = (r + (posRun b player r c d.1 d.2 : Int) * d.1,
                   c + (posRun b player r c d.1 d.2 : Int) * d.2)
            ∧ s ∈ runCoords b player r c d.1 d.2
            ∧ e ∈ runCoords b player r c d.1 d.2
            ∧ ∀ x ∈ runCoords b player r c d.1 d.2, lexLe s x ∧ lexLe x e)) := by
  refine ⟨?_, ?_, ?_⟩
  · intro hnone
    unfold Board.check_win
    rw [hnone]
  · intro r c hsome hne
    unfold Board.check_win
    rw [hsome]
    dsimp only
    rw [if_pos hne]
  · intro r c hsome heq
    unfold Board.check_win
    rw [hsome]
    dsimp only
    rw [if_neg (not_not_intro heq)]
    have hspec := checkWinLoop_spec b player r c DIRECTIONS
    constructor
    · refine hspec.1.trans ?_
      constructor
      · rintro ⟨d, hd, hlen⟩
        exact ⟨d, hd, by rwa [runCoords_length] at hlen⟩
      · rintro ⟨d, hd, hlen⟩
        exact ⟨d, hd, by rwa [← runCoords_length] at hlen⟩
    · intro s e d hinfo
      have hw := hspec.2 s e d hinfo
      have hdmem : ((d.1, d.2) : Int × Int) ∈ DIRECTIONS := by
        rw [Prod.mk.eta]
        exact hw.1
      have hminmax := runCoords_min_le_max b player r c d.1 d.2 hdmem
      have hsmin : s = (r - (negRun b player r c d.1 d.2 : Int) * d.1,
          c - (negRun b player r c d.1 d.2 : Int) * d.2) :=
        lexLe_antisymm
          ((hw.2.2.2.2 _ (runCoords_min_mem b player r c d.1 d.2)).1)
          ((hminmax s hw.2.2.1).1)
      have hemax : e = (r + (posRun b player r c d.1 d.2 : Int) * d.1,
          c + (posRun b player r c d.1 d.2 : Int) * d.2) :=
        lexLe_antisymm
          ((hminmax e hw.2.2.2.1).2)
          ((hw.2.2.2.2 _ (runCoords_max_mem b player r c d.1 d.2)).2)
      exact ⟨hw.1, by rw [← runCoords_length]; exact hw.2.1,
        count_line_length_eq_runs b player r c d.1 d.2,
        hsmin, hemax, hw.2.2⟩

/-- Witness for C2 on a won concrete position: full Black row 0 with last
move (0, 2). -/
theorem claim_C2_check_win_witness :
    c2Board.last_move = some (0, 2)
    ∧ gridGet c2Board.grid 0 2 = BLACK
    ∧ ((((c2Board.check_win BLACK).1 = true)
        ↔ ∃ d ∈ DIRECTIONS, c2Board.win_length ≤ c2Board.count_line_length 0 2 d.1 d.2 BLACK)
      ∧ (∀ s e d, (c2Board.check_win BLACK).2 = some (s, e, d) →
          d ∈ DIRECTIONS
          ∧ c2Board.win_length ≤ c2Board.count_line_length 0 2 d.1 d.2 BLACK
          ∧ c2Board.count_line_length 0 2 d.1 d.2 BLACK
              = 1 + posRun c2Board BLACK 0 2 d.1 d.2 + negRun c2Board BLACK 0 2 d.1 d.2
          ∧ s = (0 - (negRun c2Board BLACK 0 2 d.1 d.2 : Int) * d.1,
                 2 - (negRun c2Board BLACK 0 2 d.1 d.2 : Int) * d.2)
          ∧ e = (0 + (posRun c2Board BLACK 0 2 d.1 d.2 : Int) * d.1,
                 2 + (posRun c2Board BLACK 0 2 d.1 d.2 : Int) * d.2)
          ∧ s ∈ runCoords c2Board BLACK 0 2 d.1 d.2
          ∧ e ∈ runCoords c2Board BLACK 0 2 d.1 d.2
          ∧ ∀ x ∈ runCoords c2Board BLACK 0 2 d.1 d.2, lexLe s x ∧ lexLe x e)) :=
  ⟨rfl, by decide, (claim_C2_check_win c2Board BLACK).2.2 0 2 rfl (by decide)⟩

end NewRenju
